import Mathlib

/-!
Verification of the Tolkien dashboard client (`frontend/app.js`).

Shallow embedding conventions:
* JavaScript numbers are modelled as exact rationals (`ℚ`).  The
  ECMAScript number formatters (`toFixed`, `toLocaleString`,
  `toExponential`, number-to-string) are modelled as exact decimal
  rounding on `ℚ`; binary floating point representation artifacts
  (and the `toFixed` fallback to exponential notation for magnitudes
  at or above 1e21) are outside the model.
* The DOM is a record of optional display slots: `none` means the
  element is absent from the page, `some s` means it exists and
  currently shows `s`.
* `localStorage` is a single slot holding an optional raw string,
  together with a flag modelling a throwing storage backend.
* JSON values are a deep embedding (`Json`), with `JSON.stringify`
  and `JSON.parse` modelled as executable functions (the parser is
  modelled on whitespace-free input, which is all that `stringify`
  ever produces).
-/

set_option maxRecDepth 4000

namespace Tolkien

/-! ### Decimal digit strings -/

/-- The character for a single decimal digit `d < 10`. -/
def toDigitChar (d : ℕ) : Char := Char.ofNat (48 + d)

/-- Fueled helper for `natToChars`; any fuel above the argument gives
the digit characters. -/
def natToCharsAux : ℕ → ℕ → List Char
  | 0, _ => []
  | fuel + 1, n =>
    if n < 10 then [toDigitChar n]
    else natToCharsAux fuel (n / 10) ++ [toDigitChar (n % 10)]

/-- Decimal digit characters of a natural number, most significant first. -/
def natToChars (n : ℕ) : List Char := natToCharsAux (n + 1) n

/-- Value of a list of decimal digit characters, most significant first. -/
def charsToNat (l : List Char) : ℕ :=
  l.foldl (fun a c => 10 * a + (c.toNat - 48)) 0

/-- Left-pad a digit string with zeros up to width `f`. -/
def padZeros (f : ℕ) (l : List Char) : List Char :=
  List.replicate (f - l.length) '0' ++ l

/-- Rounding with ties toward positive infinity, as in ECMAScript
`Number.prototype.toFixed` (pick the larger candidate on a tie). -/
def roundHalfUp (x : ℚ) : ℤ := ⌊x + 1/2⌋

/-- Insert a thousands separator after every third character of a
reversed digit string. -/
def groupAux : List Char → List Char
  | a :: b :: c :: d :: rest => a :: b :: c :: ',' :: groupAux (d :: rest)
  | l => l

/-- Group the digits of an integer part with `,` separators, as the
default `en` locale of `toLocaleString` does. -/
def groupDigits (l : List Char) : List Char :=
  (groupAux l.reverse).reverse

/-- Strip trailing zero digits from a fraction `fp` of width `f`,
returning the stripped fraction and its remaining width. -/
def stripFracZeros : ℕ → ℕ → ℕ × ℕ
  | fp, 0 => (fp, 0)
  | fp, f + 1 => if fp % 10 = 0 then stripFracZeros (fp / 10) f else (fp, f + 1)

/-! ### Models of the ECMAScript number formatters -/

/-- Characters of `x.toFixed(f)`: exact decimal rounding (ties toward
positive infinity) rendered with exactly `f` fractional digits. -/
def jsToFixedChars (f : ℕ) (x : ℚ) : List Char :=
  let n := roundHalfUp (x * 10 ^ f)
  let a := n.natAbs
  let ip := a / 10 ^ f
  let fp := a % 10 ^ f
  (if n < 0 then ['-'] else []) ++ natToChars ip ++
    (if f = 0 then [] else '.' :: padZeros f (natToChars fp))

/-- Model of `x.toFixed(f)`. -/
def jsToFixed (f : ℕ) (x : ℚ) : String := String.mk (jsToFixedChars f x)

/-- Characters of `x.toLocaleString(undefined, {maximumFractionDigits: f})`:
round the magnitude half away from zero to at most `f` fractional
digits, strip trailing fractional zeros, group the integer part. -/
def jsToLocaleStringChars (f : ℕ) (x : ℚ) : List Char :=
  let a := (roundHalfUp (|x| * 10 ^ f)).toNat
  let ip := a / 10 ^ f
  let fp := a % 10 ^ f
  let s := stripFracZeros fp f
  (if x < 0 then ['-'] else []) ++ groupDigits (natToChars ip) ++
    (if s.2 = 0 then [] else '.' :: padZeros s.2 (natToChars s.1))

/-- Model of `x.toLocaleString(undefined, {maximumFractionDigits: f})`. -/
def jsToLocaleString (f : ℕ) (x : ℚ) : String := String.mk (jsToLocaleStringChars f x)

/-- Fueled helper for `pow10Needed`. -/
def pow10NeededAux : ℕ → ℕ → ℕ → ℕ
  | 0, _, _ => 0
  | fuel + 1, num, den =>
    if num = 0 then 0
    else if den ≤ num then 0
    else pow10NeededAux fuel (num * 10) den + 1

/-- Smallest `k` with `den ≤ num * 10 ^ k`, for `1 ≤ num`. -/
def pow10Needed (num den : ℕ) : ℕ := pow10NeededAux den num den

/-- Floor of the base-10 logarithm of a positive rational. -/
def qLog10Floor (x : ℚ) : ℤ :=
  if 1 ≤ x then ((natToChars (⌊x⌋).toNat).length : ℤ) - 1
  else -(pow10Needed x.num.toNat x.den : ℤ)

/-- Mantissa (as an integer with `f + 1` digits) and exponent of
`x.toExponential(f)` for positive `x`: the mantissa is rounded to `f`
fractional digits with ties toward positive infinity, carrying into
the exponent when rounding reaches the next power of ten. -/
def jsExpParts (f : ℕ) (x : ℚ) : ℕ × ℤ :=
  let e := qLog10Floor x
  let m0 := (roundHalfUp (x * (10 : ℚ) ^ ((f : ℤ) - e))).toNat
  if 10 ^ (f + 1) ≤ m0 then (m0 / 10, e + 1) else (m0, e)

/-- Characters of `x.toExponential(f)` for positive `x`: mantissa
rounded to `f` fractional digits, explicit sign on the exponent. -/
def jsToExponentialChars (f : ℕ) (x : ℚ) : List Char :=
  if x ≤ 0 then '0' :: '.' :: List.replicate f '0' ++ ['e', '+', '0']
  else
    (match natToChars (jsExpParts f x).1 with
     | [] => ['0']
     | d :: ds => d :: (if f = 0 then [] else '.' :: ds)) ++
      'e' :: (if (jsExpParts f x).2 < 0 then '-' else '+') ::
        natToChars (jsExpParts f x).2.natAbs

/-- Model of `x.toExponential(f)`. -/
def jsToExponential (f : ℕ) (x : ℚ) : String := String.mk (jsToExponentialChars f x)

/-- Smallest `k < 100` for which `q * 10 ^ k` is an integer, when one
exists (that is, when `q` has a finite decimal expansion). -/
def decKExp (q : ℚ) : Option ℕ :=
  (List.range 100).find? (fun k => (q * 10 ^ k).den == 1)

/-- Whether `q` has a finite decimal expansion of at most 99 digits;
all numbers produced by the JavaScript runtime do. -/
def decRepB (q : ℚ) : Bool := (decKExp q).isSome

/-- Model of the default JavaScript number-to-string conversion (as
used by template interpolation and `JSON.stringify`) for numbers with
a finite decimal expansion: the shortest plain decimal form.  The
ECMAScript exponential forms for magnitudes below 1e-6 or at or above
1e21 are outside the model. -/
def jsNumReprChars (q : ℚ) : List Char :=
  match decKExp q with
  | some k =>
    let n := (q * 10 ^ k).num
    let a := n.natAbs
    let ip := a / 10 ^ k
    let fp := a % 10 ^ k
    (if n < 0 then ['-'] else []) ++ natToChars ip ++
      (if k = 0 then [] else '.' :: padZeros k (natToChars fp))
  | none => ['?']

/-- Model of the default JavaScript number-to-string conversion. -/
def jsNumRepr (q : ℚ) : String := String.mk (jsNumReprChars q)

/-! ### Small string helpers used in specifications -/

/-- Boolean string prefix test. -/
def strStartsWith (s p : String) : Bool := p.data.isPrefixOf s.data

/-- Boolean string suffix test. -/
def strEndsWith (s p : String) : Bool := p.data.isSuffixOf s.data

/-- Whether `needle` occurs as a contiguous run inside a character list. -/
def infixAux (needle : List Char) : List Char → Bool
  | [] => needle.isEmpty
  | c :: t => needle.isPrefixOf (c :: t) || infixAux needle t

/-- Boolean substring test. -/
def strContainsSub (s p : String) : Bool := infixAux p.data s.data

/-- Model of `String.prototype.toUpperCase` for the ASCII kinds the
code uppercases. -/
def jsToUpperCase (s : String) : String := String.mk (s.data.map Char.toUpper)

/-- The characters after the first `.` of a list, if any. -/
def afterFirstDot : List Char → Option (List Char)
  | [] => none
  | c :: rest => if c = '.' then some rest else afterFirstDot rest

/-! ### app.js line 4-5: API base resolution -/

/-- Model of `/^(localhost|127\.)/.test(location.hostname)` (app.js
line 4).  The regular expression is anchored only at the start, so it
accepts any hostname beginning with `localhost` or with `127.`. -/
def isLocal (hostname : String) : Bool :=
  strStartsWith hostname "localhost" || strStartsWith hostname "127."

/-- Model of the JavaScript `||` fallback on an optional string: the
empty string is falsy and selects the alternative. -/
def jsOrElse (o : Option String) (alt : String) : String :=
  match o with
  | some s => if s = "" then alt else s
  | none => alt

/-- Model of `s.replace(/\/+$/, '')`: strip all trailing slashes. -/
def stripTrailingSlashes (s : String) : String :=
  String.mk ((s.data.reverse.dropWhile (fun c => c == '/')).reverse)

/-- Model of the `API_BASE` computation (app.js line 5) as a function
of `location.hostname` and the optional `window.API_BASE` override. -/
def API_BASE (hostname : String) (windowApiBase : Option String) : String :=
  stripTrailingSlashes
    (jsOrElse windowApiBase (if isLocal hostname then "http://127.0.0.1:8000" else ""))

/-! ### app.js lines 8-18: the three formatters -/

/-- Model of `fmtUSD` (app.js line 8). -/
def fmtUSD (n : ℚ) : String := "$" ++ jsToLocaleString 2 n

/-- Model of `fmtPct` (app.js line 9): explicit `+` for non-negative
input, at most one fractional digit, `%` suffix. -/
def fmtPct (n : ℚ) : String :=
  (if 0 ≤ n then "+" else "") ++ jsToLocaleString 1 n ++ "%"

/-- Model of `fmtPrice` (app.js lines 12-18): tiered precision. -/
def fmtPrice (n : ℚ) : String :=
  if 1/100 ≤ n then "$" ++ jsToFixed 4 n
  else if 1/1000000 ≤ n then "$" ++ jsToFixed 8 n
  else if 0 < n then "$" ++ jsToExponential 2 n
  else "$0.00"

/-! ### Data model -/

/-- A transaction record from the snapshot JSON (spec section 3).
Optional fields model fields that may be absent (`undefined`). -/
structure Transaction where
  kind : Option String
  amount_sol : Option ℚ
  description : Option String
  timestamp : Option String
  signature : Option String
deriving DecidableEq

/-- A dashboard snapshot (spec section 3).  The numeric fields are
modelled as present rationals; `token_mint` and `transactions` may be
absent. -/
structure Snapshot where
  price_usd : ℚ
  volume_change_pct : ℚ
  buybacks_usd : ℚ
  burned_usd : ℚ
  market_cap_usd : ℚ
  next_goal_usd : ℚ
  next_goal_progress_pct : ℚ
  supply_burned_pct : ℚ
  token_mint : Option String
  transactions : Option (List Transaction)
deriving DecidableEq

/-- The fixed set of DOM slots the component writes (spec section 6).
`none` models a missing element, `some v` an element currently showing
`v`.  The two fill slots carry the applied width percentage. -/
structure Dom where
  statPrice : Option String
  statVolume : Option String
  statBuybacks : Option String
  statBurned : Option String
  goalLabel : Option String
  goalPctLabel : Option String
  goalFill : Option ℚ
  burnPctLabel : Option String
  burnFill : Option ℚ
  contractAddress : Option String
  txList : Option String
deriving DecidableEq

/-! ### app.js lines 21-26: cache helpers and usability -/

/-- The durable storage key (app.js line 21). -/
def CACHE_KEY : String := "tolkien_dashboard_cache_v1"

/-- Model of `isUsable` (app.js line 24): non-null and at least one of
a positive price, a positive market cap, or a non-empty transactions
array. -/
def isUsable (od : Option Snapshot) : Bool :=
  match od with
  | none => false
  | some d =>
      decide (0 < d.price_usd) || decide (0 < d.market_cap_usd) ||
        (match d.transactions with
         | some l => decide (0 < l.length)
         | none => false)

/-- Model of `setWidth` (app.js line 26): no-op on a missing element,
otherwise clamp the percentage into `[0, 100]` and apply it. -/
def setWidth (el : Option ℚ) (pct : ℚ) : Option ℚ :=
  match el with
  | none => none
  | some _ => some (max 0 (min 100 pct))

/-! ### app.js lines 28-65: rendering -/

/-- The seven interpolated pieces of one transaction card
(app.js lines 48-54). -/
structure CardParts where
  icon : String
  title : String
  meta : String
  desc : String
  when : String
  href : String
  safe : String
deriving DecidableEq

/-- Model of the per-transaction card pieces (app.js lines 48-54).
`dl` models `t => new Date(t).toLocaleString()`, which depends on the
runtime locale and is kept abstract. -/
def cardParts (dl : String → String) (tx : Transaction) : CardParts where
  icon :=
    if tx.kind = some "burn" then "🔥"
    else if tx.kind = some "buyback" then "🌀"
    else if tx.kind = some "claim" then "💸"
    else "ℹ️"
  title :=
    if tx.kind = some "burn" then "Burn transaction"
    else if tx.kind = some "buyback" then "Buy-back"
    else if tx.kind = some "claim" then "Claim creator fee"
    else "Event"
  meta := jsToUpperCase (tx.kind.getD "") ++ " — " ++ jsNumRepr (tx.amount_sol.getD 0) ++ " SOL"
  desc := tx.description.getD ""
  when :=
    match tx.timestamp with
    | some t => if t = "" then "" else dl t
    | none => ""
  href :=
    match tx.signature with
    | some s => if s = "" then "#" else "https://solscan.io/tx/" ++ s
    | none => "#"
  safe :=
    match tx.signature with
    | some s => if s = "" then "" else "target=\"_blank\" rel=\"noreferrer\""
    | none => ""

/-- Model of the card template literal (app.js lines 55-62). -/
def txCard (dl : String → String) (tx : Transaction) : String :=
  let p := cardParts dl tx
  "\n      <div class=\"card compact skinny flex-shrink-0 snap-start\">\n        <div class=\"flex items-center justify-center text-4xl text-neon mb-3\">"
    ++ p.icon ++
    "</div>\n        <h3 class=\"font-semibold mb-1\">"
    ++ p.title ++
    "</h3>\n        <div class=\"meta mb-2\">"
    ++ p.meta ++
    "</div>\n        <p class=\"text-xs mb-4\">"
    ++ p.desc ++
    "<br><span class=\"opacity-60\">"
    ++ p.when ++
    "</span></p>\n        <div><a href=\""
    ++ p.href ++
    "\" "
    ++ p.safe ++
    " class=\"card-button block text-center\">VIEW TRANSACTION</a></div>\n      </div>"

/-- The placeholder written when the joined card markup is empty
(app.js line 64). -/
def noTxPlaceholder : String :=
  "<div class=\"text-sm opacity-70 px-2\">No recent transactions.</div>"

/-- Model of the transaction list markup (app.js lines 47 and 63-64):
`(d.transactions || []).map(...).join('') || placeholder`. -/
def renderTxList (dl : String → String) (txs : Option (List Transaction)) : String :=
  let joined := String.join ((txs.getD []).map (txCard dl))
  if joined = "" then noTxPlaceholder else joined

/-- Model of `renderDashboard` (app.js lines 28-65) as a function from
a snapshot and the current DOM to the updated DOM.  Each slot is
written only when the element exists; the contract address slot is
written only when `token_mint` is truthy. -/
def renderDashboard (dl : String → String) (d : Snapshot) (dom : Dom) : Dom where
  statPrice := dom.statPrice.map fun _ => fmtPrice d.price_usd
  statVolume := dom.statVolume.map fun _ => fmtPct d.volume_change_pct
  statBuybacks := dom.statBuybacks.map fun _ => fmtUSD d.buybacks_usd
  statBurned := dom.statBurned.map fun _ => fmtUSD d.burned_usd
  goalLabel := dom.goalLabel.map fun _ =>
    "(" ++ fmtUSD d.market_cap_usd ++ " / " ++ fmtUSD d.next_goal_usd ++ ")"
  goalPctLabel := dom.goalPctLabel.map fun _ => jsNumRepr d.next_goal_progress_pct ++ "%"
  goalFill := setWidth dom.goalFill d.next_goal_progress_pct
  burnPctLabel := dom.burnPctLabel.map fun _ => jsNumRepr d.supply_burned_pct ++ "%"
  burnFill := setWidth dom.burnFill d.supply_burned_pct
  contractAddress :=
    match d.token_mint with
    | some m => if m = "" then dom.contractAddress else dom.contractAddress.map fun _ => m
    | none => dom.contractAddress
  txList := dom.txList.map fun _ => renderTxList dl d.transactions

/-! ### JSON values, stringify and parse -/

/-- A JSON value, as produced by `response.json()` or `JSON.parse`. -/
inductive Json where
  | null : Json
  | bool : Bool → Json
  | num : ℚ → Json
  | str : String → Json
  | arr : List Json → Json
  | obj : List (String × Json) → Json

/-- Hexadecimal digit character (lowercase), for control escapes. -/
def hexDigitChar (n : ℕ) : Char :=
  if n < 10 then Char.ofNat (48 + n) else Char.ofNat (87 + n)

/-- String escaping as in `JSON.stringify`: escape the quote, the
backslash, named control escapes, and `\u00XX` for other controls. -/
def escChar (c : Char) : List Char :=
  if c = '"' then ['\\', '"']
  else if c = '\\' then ['\\', '\\']
  else if c = '\x08' then ['\\', 'b']
  else if c = '\t' then ['\\', 't']
  else if c = '\n' then ['\\', 'n']
  else if c = '\x0c' then ['\\', 'f']
  else if c = '\x0d' then ['\\', 'r']
  else if c.toNat < 32 then
    ['\\', 'u', '0', '0', hexDigitChar (c.toNat / 16), hexDigitChar (c.toNat % 16)]
  else [c]

/-- A JSON string literal: quoted and escaped. -/
def strLitChars (s : String) : List Char :=
  '"' :: s.data.foldr (fun c acc => escChar c ++ acc) ['"']

mutual

/-- Characters of `JSON.stringify` output for a JSON value. -/
def jChars : Json → List Char
  | .null => ['n', 'u', 'l', 'l']
  | .bool b => cond b ['t', 'r', 'u', 'e'] ['f', 'a', 'l', 's', 'e']
  | .num q => jsNumReprChars q
  | .str s => strLitChars s
  | .arr [] => ['[', ']']
  | .arr (x :: xs) => '[' :: (jChars x ++ jCharsElems xs) ++ [']']
  | .obj [] => ['\x7b', '\x7d']
  | .obj (m :: ms) => '\x7b' :: (jCharsMember m ++ jCharsMembers ms) ++ ['\x7d']

/-- Remaining array elements, each preceded by a comma. -/
def jCharsElems : List Json → List Char
  | [] => []
  | x :: xs => ',' :: (jChars x ++ jCharsElems xs)

/-- One object member: key literal, colon, value. -/
def jCharsMember : String × Json → List Char
  | (k, v) => strLitChars k ++ ':' :: jChars v

/-- Remaining object members, each preceded by a comma. -/
def jCharsMembers : List (String × Json) → List Char
  | [] => []
  | m :: ms => ',' :: (jCharsMember m ++ jCharsMembers ms)

end

/-- Model of `JSON.stringify`. -/
def jsonStringify (j : Json) : String := String.mk (jChars j)

/-- Numeric value of a hexadecimal digit character. -/
def hexVal (c : Char) : Option ℕ :=
  if c.isDigit then some (c.toNat - 48)
  else if 97 ≤ c.toNat && c.toNat ≤ 102 then some (c.toNat - 87)
  else if 65 ≤ c.toNat && c.toNat ≤ 70 then some (c.toNat - 55)
  else none

/-- The character encoded by a single-letter JSON escape. -/
def escCode (e : Char) : Option Char :=
  if e = '"' then some '"'
  else if e = '\\' then some '\\'
  else if e = '/' then some '/'
  else if e = 'b' then some '\x08'
  else if e = 'f' then some '\x0c'
  else if e = 'n' then some '\n'
  else if e = 'r' then some '\x0d'
  else if e = 't' then some '\t'
  else none

/-- Parse the body of a JSON string literal after the opening quote,
returning the decoded characters and the input after the closing
quote. -/
def parseStringBody : List Char → Option (List Char × List Char)
  | [] => none
  | '"' :: rest => some ([], rest)
  | '\\' :: 'u' :: h1 :: h2 :: h3 :: h4 :: rest =>
    (match hexVal h1, hexVal h2, hexVal h3, hexVal h4 with
     | some a, some b, some c, some d =>
       (match parseStringBody rest with
        | some (s, r) => some (Char.ofNat (((a * 16 + b) * 16 + c) * 16 + d) :: s, r)
        | none => none)
     | _, _, _, _ => none)
  | '\\' :: e :: rest =>
    (match escCode e with
     | some c =>
       (match parseStringBody rest with
        | some (s, r) => some (c :: s, r)
        | none => none)
     | none => none)
  | c :: rest =>
    (match parseStringBody rest with
     | some (s, r) => some (c :: s, r)
     | none => none)

/-- Parse the optional fraction of a JSON number. -/
def parseFracPart (l2 : List Char) : Option (ℚ × List Char) :=
  if l2.head? = some '.' then
    let fs := l2.tail.takeWhile (fun c => c.isDigit)
    let r2 := l2.tail.dropWhile (fun c => c.isDigit)
    if fs = [] then none
    else some ((charsToNat fs : ℚ) / 10 ^ fs.length, r2)
  else some (0, l2)

/-- Parse the optional exponent of a JSON number. -/
def parseExpPart (l3 : List Char) : Option (ℤ × List Char) :=
  if l3.head? = some 'e' ∨ l3.head? = some 'E' then
    let sgnNeg := l3.tail.head? = some '-'
    let afterSgn :=
      if l3.tail.head? = some '-' ∨ l3.tail.head? = some '+'
      then l3.tail.tail else l3.tail
    let es := afterSgn.takeWhile (fun c => c.isDigit)
    let r3 := afterSgn.dropWhile (fun c => c.isDigit)
    if es = [] then none
    else some ((if sgnNeg then -1 else 1) * (charsToNat es : ℤ), r3)
  else some (0, l3)

/-- Parse a JSON number after its optional minus sign: integer digits,
optional fraction, optional exponent. -/
def parseUnsignedNumber (l : List Char) : Option (ℚ × List Char) :=
  let ds := l.takeWhile (fun c => c.isDigit)
  let l2 := l.dropWhile (fun c => c.isDigit)
  if ds = [] then none
  else
    match parseFracPart l2 with
    | none => none
    | some (fq, l3) =>
      match parseExpPart l3 with
      | none => none
      | some (ex, l4) =>
        some (((charsToNat ds : ℚ) + fq) * (10 : ℚ) ^ ex, l4)

/-- Parse a JSON number: optional minus, then the unsigned number. -/
def parseNumber (l : List Char) : Option (ℚ × List Char) :=
  if l.head? = some '-' then
    match parseUnsignedNumber l.tail with
    | some (v, r) => some (-v, r)
    | none => none
  else parseUnsignedNumber l

mutual

/-- Fueled parser for one JSON value. -/
def parseValue : ℕ → List Char → Option (Json × List Char)
  | 0, _ => none
  | _ + 1, 'n' :: 'u' :: 'l' :: 'l' :: r => some (.null, r)
  | _ + 1, 't' :: 'r' :: 'u' :: 'e' :: r => some (.bool true, r)
  | _ + 1, 'f' :: 'a' :: 'l' :: 's' :: 'e' :: r => some (.bool false, r)
  | _ + 1, '"' :: r =>
    (match parseStringBody r with
     | some (cs, r2) => some (.str (String.mk cs), r2)
     | none => none)
  | fuel + 1, '[' :: r =>
    (match r with
     | ']' :: r2 => some (.arr [], r2)
     | _ =>
       (match parseElems fuel r with
        | some (es, r2) => some (.arr es, r2)
        | none => none))
  | fuel + 1, '\x7b' :: r =>
    (match r with
     | '\x7d' :: r2 => some (.obj [], r2)
     | _ =>
       (match parseMembers fuel r with
        | some (ms, r2) => some (.obj ms, r2)
        | none => none))
  | _ + 1, l =>
    (match parseNumber l with
     | some (q, r) => some (.num q, r)
     | none => none)

/-- Fueled parser for the elements of a non-empty JSON array, up to and
including the closing bracket. -/
def parseElems : ℕ → List Char → Option (List Json × List Char)
  | 0, _ => none
  | fuel + 1, l =>
    (match parseValue fuel l with
     | some (v, r) =>
       (match r with
        | ',' :: r2 =>
          (match parseElems fuel r2 with
           | some (vs, r3) => some (v :: vs, r3)
           | none => none)
        | ']' :: r2 => some ([v], r2)
        | _ => none)
     | none => none)

/-- Fueled parser for the members of a non-empty JSON object, up to and
including the closing brace. -/
def parseMembers : ℕ → List Char → Option (List (String × Json) × List Char)
  | 0, _ => none
  | fuel + 1, '"' :: l =>
    (match parseStringBody l with
     | some (k, r) =>
       (match r with
        | ':' :: r2 =>
          (match parseValue fuel r2 with
           | some (v, r3) =>
             (match r3 with
              | ',' :: r4 =>
                (match parseMembers fuel r4 with
                 | some (ms, r5) => some ((String.mk k, v) :: ms, r5)
                 | none => none)
              | '\x7d' :: r4 => some ([(String.mk k, v)], r4)
              | _ => none)
           | none => none)
        | _ => none)
     | none => none)
  | _ + 1, _ => none

end

/-- Model of `JSON.parse`: parse one value and require the input to be
fully consumed, as `JSON.parse` throws on trailing characters. -/
def jsonParse (s : String) : Option Json :=
  match parseValue (s.data.length + 1) s.data with
  | some (j, []) => some j
  | _ => none

mutual

/-- Well-formedness of a JSON value for the serialization model: every
numeric leaf has a finite decimal expansion. -/
def jwfB : Json → Bool
  | .null => true
  | .bool _ => true
  | .num q => decRepB q
  | .str _ => true
  | .arr l => jwfElemsB l
  | .obj l => jwfMembersB l

/-- Well-formedness of every element of a JSON array. -/
def jwfElemsB : List Json → Bool
  | [] => true
  | x :: xs => jwfB x && jwfElemsB xs

/-- Well-formedness of every member value of a JSON object. -/
def jwfMembersB : List (String × Json) → Bool
  | [] => true
  | (_, v) :: ms => jwfB v && jwfMembersB ms

end

/-- Whether a list is a legal continuation after a printed JSON number:
empty, or starting with a separator or closing bracket. -/
def sepAfterB : List Char → Bool
  | [] => true
  | c :: _ => c == ',' || c == ']' || c == '\x7d'

/-! ### app.js lines 22-23: the durable cache slot -/

/-- The durable storage slot under `CACHE_KEY`, together with a flag
modelling a storage backend whose operations throw. -/
structure Storage where
  failing : Bool
  slot : Option String
deriving DecidableEq

/-- Model of `saveCache` (app.js line 23): best effort, a throwing
backend leaves the slot unchanged. -/
def saveCache (j : Json) (st : Storage) : Storage :=
  if st.failing then st else { st with slot := some (jsonStringify j) }

/-- Model of `loadCache` (app.js line 22): a throwing backend, an empty
slot, or unparseable contents all yield `none`. -/
def loadCache (st : Storage) : Option Json :=
  if st.failing then none
  else
    match st.slot with
    | none => none
    | some s => jsonParse s

/-! ### app.js lines 67-81: the fetch cycle -/

/-- The possible outcomes of one `fetch` of `{API_BASE}/dashboard`:
transport failure, non-2xx status, JSON parse failure, or a parsed
body (`none` models a JSON `null` body). -/
inductive FetchResult where
  | netError : FetchResult
  | httpError : ℕ → FetchResult
  | jsonError : FetchResult
  | ok : Option Snapshot → FetchResult

/-- Encoding of a transaction as the JSON object the backend sends;
absent optional fields are omitted. -/
def txToJson (t : Transaction) : Json :=
  Json.obj
    ((match t.kind with | some s => [("kind", Json.str s)] | none => []) ++
     (match t.amount_sol with | some q => [("amount_sol", Json.num q)] | none => []) ++
     (match t.description with | some s => [("description", Json.str s)] | none => []) ++
     (match t.timestamp with | some s => [("timestamp", Json.str s)] | none => []) ++
     (match t.signature with | some s => [("signature", Json.str s)] | none => []))

/-- Encoding of a snapshot as a JSON object, used when persisting the
fetched body. -/
def snapshotToJson (d : Snapshot) : Json :=
  Json.obj
    ([("price_usd", Json.num d.price_usd),
      ("volume_change_pct", Json.num d.volume_change_pct),
      ("buybacks_usd", Json.num d.buybacks_usd),
      ("burned_usd", Json.num d.burned_usd),
      ("market_cap_usd", Json.num d.market_cap_usd),
      ("next_goal_usd", Json.num d.next_goal_usd),
      ("next_goal_progress_pct", Json.num d.next_goal_progress_pct),
      ("supply_burned_pct", Json.num d.supply_burned_pct)] ++
     (match d.token_mint with | some m => [("token_mint", Json.str m)] | none => []) ++
     (match d.transactions with
      | some l => [("transactions", Json.arr (l.map txToJson))]
      | none => []))

/-- The client-visible mutable state: the durable cache slot and the
rendered DOM. -/
structure ClientState where
  storage : Storage
  dom : Dom
deriving DecidableEq

/-- Model of one run of `fetchDashboard` (app.js lines 67-81) given the
outcome of the network request: with an empty base no request is made;
every failure is swallowed; a usable body is persisted and rendered; an
unusable body is silently discarded. -/
def fetchDashboard (dl : String → String) (apiBase : String) (res : FetchResult)
    (s : ClientState) : ClientState :=
  if apiBase = "" then s
  else
    match res with
    | .ok od =>
      if isUsable od then
        match od with
        | some d =>
          { storage := saveCache (snapshotToJson d) s.storage
            dom := renderDashboard dl d s.dom }
        | none => s
      else s
    | _ => s

/-! ### Statements taken from the specification, for comparison -/

/-- The API base resolution policy exactly as the specification words
it: the fixed development URL when the hostname IS `localhost` or
begins with `127.` and the override is unset; otherwise the override
verbatim when set, else the empty string; trailing slashes stripped. -/
def apiBaseClaim (hostname : String) (o : Option String) : String :=
  stripTrailingSlashes
    (if (hostname = "localhost" ∨ strStartsWith hostname "127.") ∧ o = none
     then "http://127.0.0.1:8000"
     else o.getD "")

/-- The API base resolution policy amended to match the code: the
loopback test accepts any hostname BEGINNING with `localhost` (the
regular expression is anchored only at the start), and an empty-string
override counts as unset. -/
def apiBaseAmended (hostname : String) (o : Option String) : String :=
  stripTrailingSlashes
    (if (strStartsWith hostname "localhost" || strStartsWith hostname "127.")
        ∧ (o = none ∨ o = some "")
     then "http://127.0.0.1:8000"
     else o.getD "")

/-- The example transaction of spec section 8: kind `burn`, amount 2.5
SOL, no signature. -/
def burnTx : Transaction :=
  { kind := some "burn", amount_sol := some (5/2), description := none,
    timestamp := none, signature := none }

/-- The all-zero snapshot with an empty transaction list. -/
def zeroSnap : Snapshot :=
  { price_usd := 0, volume_change_pct := 0, buybacks_usd := 0, burned_usd := 0,
    market_cap_usd := 0, next_goal_usd := 0, next_goal_progress_pct := 0,
    supply_burned_pct := 0, token_mint := none, transactions := some [] }

/-! ## Helper lemmas -/

theorem strData_append (s t : String) : (s ++ t).data = s.data ++ t.data := by
  cases s; cases t; rfl

theorem strData_mk (l : List Char) : (String.mk l).data = l := rfl

/-! ## Claim C2: the usability predicate -/

/-- C2: for every snapshot `d`, `isUsable d` returns true if and only
if `d` is non-null and has a positive price, a positive market cap, or
a non-empty transactions sequence; in particular it returns false on
the all-zero snapshot with empty transactions. -/
theorem isUsable_iff :
    (∀ od : Option Snapshot, isUsable od = true ↔
      ∃ d, od = some d ∧ (0 < d.price_usd ∨ 0 < d.market_cap_usd ∨
        ∃ l, d.transactions = some l ∧ l ≠ [])) ∧
    isUsable (some zeroSnap) = false := by
  constructor
  · intro od
    cases od with
    | none => simp [isUsable]
    | some d =>
      cases htx : d.transactions with
      | none => simp [isUsable, htx]
      | some l => simp [isUsable, htx, List.length_pos, or_assoc]
  · with_unfolding_all decide

/-- Witness for C2 at a concrete snapshot with a positive price. -/
theorem isUsable_iff_witness :
    isUsable
      (some
        { price_usd := 3, volume_change_pct := 0, buybacks_usd := 0,
          burned_usd := 0, market_cap_usd := 0, next_goal_usd := 0,
          next_goal_progress_pct := 0, supply_burned_pct := 0,
          token_mint := none, transactions := none }) = true :=
  (isUsable_iff.1 _).mpr ⟨_, rfl, Or.inl (by norm_num)⟩

/-! ## Claim C5: progress bar width clamping -/

/-- C5: the width applied by `setWidth` to an existing element is the
input percentage clamped into `[0, 100]`; in particular 150 yields 100
and -10 yields 0. -/
theorem setWidth_clamps :
    (∀ w pct : ℚ, ∃ v, setWidth (some w) pct = some v ∧ 0 ≤ v ∧ v ≤ 100 ∧
      (0 ≤ pct → pct ≤ 100 → v = pct) ∧ (100 < pct → v = 100) ∧ (pct < 0 → v = 0)) ∧
    setWidth (some 50) 150 = some 100 ∧ setWidth (some 50) (-10) = some 0 := by
  refine ⟨fun w pct => ⟨max 0 (min 100 pct), rfl, le_max_left _ _, ?_, ?_, ?_, ?_⟩, ?_, ?_⟩
  · exact max_le (by norm_num) (min_le_left _ _)
  · intro h0 h100; rw [min_eq_right h100, max_eq_right h0]
  · intro h; rw [min_eq_left h.le, max_eq_right]; norm_num
  · intro h; rw [min_eq_right (by linarith), max_eq_left (by linarith)]
  · norm_num [setWidth]
  · norm_num [setWidth]

/-- Witness for C5: an in-range percentage is applied unchanged. -/
theorem setWidth_clamps_witness : setWidth (some (50 : ℚ)) 75 = some 75 := by
  obtain ⟨v, hv, _, _, hin, _, _⟩ := setWidth_clamps.1 50 75
  rw [hv, hin (by norm_num) (by norm_num)]

/-! ## Claim C9: the contract address slot is a frame -/

/-- C9: when `token_mint` is absent or empty, `renderDashboard` leaves
the contract-address slot unchanged even when the node exists; the
slot is overwritten exactly when `token_mint` is non-empty. -/
theorem renderDashboard_contract_frame :
    (∀ (dl : String → String) (d : Snapshot) (dom : Dom),
        d.token_mint = none ∨ d.token_mint = some "" →
        (renderDashboard dl d dom).contractAddress = dom.contractAddress) ∧
    (∀ (dl : String → String) (d : Snapshot) (dom : Dom) (m : String),
        d.token_mint = some m → m ≠ "" →
        (renderDashboard dl d dom).contractAddress = dom.contractAddress.map fun _ => m) := by
  constructor
  · rintro dl d dom (h | h) <;> simp [renderDashboard, h]
  · intro dl d dom m h hm; simp [renderDashboard, h, hm]

/-- Witness for C9: a populated slot survives a snapshot with no
`token_mint`. -/
theorem renderDashboard_contract_frame_witness :
    (renderDashboard (fun t => t)
        { price_usd := 1, volume_change_pct := 0, buybacks_usd := 0, burned_usd := 0,
          market_cap_usd := 0, next_goal_usd := 0, next_goal_progress_pct := 0,
          supply_burned_pct := 0, token_mint := none, transactions := none }
        { statPrice := none, statVolume := none, statBuybacks := none, statBurned := none,
          goalLabel := none, goalPctLabel := none, goalFill := none, burnPctLabel := none,
          burnFill := none, contractAddress := some "KEEP", txList := none }).contractAddress
      = some "KEEP" :=
  renderDashboard_contract_frame.1 (fun t => t) _ _ (Or.inl rfl)

/-! ## Claim C8: empty transaction list placeholder -/

/-- C8: when the snapshot has an empty or absent transaction sequence,
`renderDashboard` writes exactly the placeholder markup into an
existing list container, and that markup carries the message
`No recent transactions.`. -/
theorem renderTxList_empty_placeholder :
    (∀ (dl : String → String) (d : Snapshot) (dom : Dom),
        d.transactions = none ∨ d.transactions = some [] →
        (renderDashboard dl d dom).txList = dom.txList.map fun _ => noTxPlaceholder) ∧
    strContainsSub noTxPlaceholder "No recent transactions." = true := by
  constructor
  · rintro dl d dom (h | h) <;> simp [renderDashboard, renderTxList, h, String.join]
  · decide

/-- Witness for C8 at a concrete snapshot with an empty transaction
list and an existing container. -/
theorem renderTxList_empty_placeholder_witness :
    (renderDashboard (fun t => t) zeroSnap
        { statPrice := none, statVolume := none, statBuybacks := none, statBurned := none,
          goalLabel := none, goalPctLabel := none, goalFill := none, burnPctLabel := none,
          burnFill := none, contractAddress := none, txList := some "old" }).txList
      = some noTxPlaceholder :=
  renderTxList_empty_placeholder.1 (fun t => t) zeroSnap _ (Or.inr rfl)

/-! ## Claim C6 (corrected): API base resolution -/

/-- C6 counterexample: the claim as stated fails on the code.  The
loopback regular expression is anchored only at the start, so the
hostname `localhost2` resolves to the development URL although it is
neither `localhost` nor a `127.` prefix; and an empty-string override
is falsy, hence ignored, although the claim would use it verbatim. -/
theorem API_BASE_claim_counterexample :
    API_BASE "localhost2" none ≠ apiBaseClaim "localhost2" none ∧
    API_BASE "localhost" (some "") ≠ apiBaseClaim "localhost" (some "") := by
  constructor <;> decide

/-- C6 amended: the resolved API base is the fixed development URL when
the hostname BEGINS WITH `localhost` or begins with `127.` and the
override is unset or empty; otherwise the override verbatim when set
non-empty, else the empty string; always with trailing slashes
stripped. -/
theorem API_BASE_resolution :
    ∀ (hostname : String) (o : Option String),
      API_BASE hostname o = apiBaseAmended hostname o := by
  intro h o
  cases o with
  | none =>
    by_cases hl : (strStartsWith h "localhost" || strStartsWith h "127.") = true <;>
      simp [API_BASE, apiBaseAmended, jsOrElse, isLocal, hl]
  | some s =>
    by_cases hs : s = ""
    · subst hs
      by_cases hl : (strStartsWith h "localhost" || strStartsWith h "127.") = true <;>
        simp [API_BASE, apiBaseAmended, jsOrElse, isLocal, hl]
    · simp [API_BASE, apiBaseAmended, jsOrElse, isLocal, hs]

/-! ## Claim C7: transaction card rendering -/

/-- C7: each transaction card selects icon and title by a 4-way lookup
on `kind`, renders an uppercased-kind and SOL-amount meta line (amount
defaulting to 0), and renders an explorer link from the signature when
present and otherwise a placeholder `#` link with no target attribute;
in particular the spec example burn transaction yields the fire icon,
the `Burn transaction` title, the meta `BURN — 2.5 SOL`, and a card
without any `target` attribute. -/
theorem cardParts_lookup :
    (∀ (dl : String → String) (tx : Transaction), tx.kind = some "burn" →
      (cardParts dl tx).icon = "🔥" ∧ (cardParts dl tx).title = "Burn transaction") ∧
    (∀ (dl : String → String) (tx : Transaction), tx.kind = some "buyback" →
      (cardParts dl tx).icon = "🌀" ∧ (cardParts dl tx).title = "Buy-back") ∧
    (∀ (dl : String → String) (tx : Transaction), tx.kind = some "claim" →
      (cardParts dl tx).icon = "💸" ∧ (cardParts dl tx).title = "Claim creator fee") ∧
    (∀ (dl : String → String) (tx : Transaction),
      tx.kind ≠ some "burn" → tx.kind ≠ some "buyback" → tx.kind ≠ some "claim" →
      (cardParts dl tx).icon = "ℹ️" ∧ (cardParts dl tx).title = "Event") ∧
    (∀ (dl : String → String) (tx : Transaction),
      (cardParts dl tx).meta =
        jsToUpperCase (tx.kind.getD "") ++ " — " ++ jsNumRepr (tx.amount_sol.getD 0) ++ " SOL") ∧
    (∀ (dl : String → String) (tx : Transaction) (s : String),
      tx.signature = some s → s ≠ "" →
      (cardParts dl tx).href = "https://solscan.io/tx/" ++ s ∧
      (cardParts dl tx).safe = "target=\"_blank\" rel=\"noreferrer\"") ∧
    (∀ (dl : String → String) (tx : Transaction),
      tx.signature = none ∨ tx.signature = some "" →
      (cardParts dl tx).href = "#" ∧ (cardParts dl tx).safe = "") ∧
    (∀ dl : String → String,
      (cardParts dl burnTx).icon = "🔥" ∧
      (cardParts dl burnTx).title = "Burn transaction" ∧
      (cardParts dl burnTx).meta = "BURN — 2.5 SOL" ∧
      (cardParts dl burnTx).href = "#" ∧
      (cardParts dl burnTx).safe = "" ∧
      strContainsSub (txCard dl burnTx) "BURN — 2.5 SOL" = true ∧
      strContainsSub (txCard dl burnTx) "target" = false) := by
  refine ⟨?_, ?_, ?_, ?_, ?_, ?_, ?_, ?_⟩
  · intro dl tx h; exact ⟨by simp [cardParts, h], by simp [cardParts, h]⟩
  · intro dl tx h; exact ⟨by simp [cardParts, h], by simp [cardParts, h]⟩
  · intro dl tx h; exact ⟨by simp [cardParts, h], by simp [cardParts, h]⟩
  · intro dl tx h1 h2 h3
    exact ⟨by simp [cardParts, h1, h2, h3], by simp [cardParts, h1, h2, h3]⟩
  · intro dl tx; rfl
  · intro dl tx s h hs; exact ⟨by simp [cardParts, h, hs], by simp [cardParts, h, hs]⟩
  · rintro dl tx (h | h) <;> exact ⟨by simp [cardParts, h], by simp [cardParts, h]⟩
  · intro dl
    have h1 : cardParts dl burnTx = cardParts (fun t => t) burnTx := rfl
    have h2 : txCard dl burnTx = txCard (fun t => t) burnTx := rfl
    refine ⟨?_, ?_, ?_, ?_, ?_, ?_, ?_⟩ <;> simp only [h1, h2] <;> with_unfolding_all decide

/-- Witness for C7 at the concrete spec example transaction. -/
theorem cardParts_lookup_witness :
    (cardParts (fun t => t) burnTx).icon = "🔥" ∧
    strContainsSub (txCard (fun t => t) burnTx) "target" = false :=
  ⟨(cardParts_lookup.1 (fun t => t) burnTx rfl).1,
   (cardParts_lookup.2.2.2.2.2.2.2 (fun t => t)).2.2.2.2.2.2⟩

/-! ## Claim C1: unusable fetch results are discarded -/

/-- C1: after an unusable fetch result, neither the durable cache slot
nor the rendered DOM changes: both still equal the state produced from
the prior good snapshot, which was persisted and rendered. -/
theorem fetchDashboard_keeps_last_good :
    ∀ (dl : String → String) (apiBase : String) (good bad : Snapshot) (s0 : ClientState),
      apiBase ≠ "" →
      isUsable (some good) = true →
      isUsable (some bad) = false →
      s0.storage.failing = false →
      fetchDashboard dl apiBase (.ok (some bad))
          (fetchDashboard dl apiBase (.ok (some good)) s0)
        = fetchDashboard dl apiBase (.ok (some good)) s0 ∧
      (fetchDashboard dl apiBase (.ok (some good)) s0).dom = renderDashboard dl good s0.dom ∧
      (fetchDashboard dl apiBase (.ok (some good)) s0).storage.slot
        = some (jsonStringify (snapshotToJson good)) := by
  intro dl apiBase good bad s0 hA hg hb hf
  simp [fetchDashboard, hA, hg, hb, saveCache, hf]

/-- Witness for C1 at concrete snapshots and an initial state. -/
theorem fetchDashboard_keeps_last_good_witness :
    fetchDashboard (fun t => t) "x" (.ok (some zeroSnap))
        (fetchDashboard (fun t => t) "x"
          (.ok (some { price_usd := 1, volume_change_pct := 0, buybacks_usd := 0,
                       burned_usd := 0, market_cap_usd := 0, next_goal_usd := 0,
                       next_goal_progress_pct := 0, supply_burned_pct := 0,
                       token_mint := none, transactions := none }))
          { storage := { failing := false, slot := none },
            dom := { statPrice := some "", statVolume := some "", statBuybacks := some "",
                     statBurned := some "", goalLabel := some "", goalPctLabel := some "",
                     goalFill := some 0, burnPctLabel := some "", burnFill := some 0,
                     contractAddress := some "", txList := some "" } })
      = fetchDashboard (fun t => t) "x"
          (.ok (some { price_usd := 1, volume_change_pct := 0, buybacks_usd := 0,
                       burned_usd := 0, market_cap_usd := 0, next_goal_usd := 0,
                       next_goal_progress_pct := 0, supply_burned_pct := 0,
                       token_mint := none, transactions := none }))
          { storage := { failing := false, slot := none },
            dom := { statPrice := some "", statVolume := some "", statBuybacks := some "",
                     statBurned := some "", goalLabel := some "", goalPctLabel := some "",
                     goalFill := some 0, burnPctLabel := some "", burnFill := some 0,
                     contractAddress := some "", txList := some "" } } :=
  (fetchDashboard_keeps_last_good (fun t => t) "x" _ zeroSnap _
      (by decide) (by with_unfolding_all decide) (by with_unfolding_all decide) rfl).1

/-! ## Digit string lemmas -/

theorem natToCharsAux_congr :
    ∀ (f1 f2 n : ℕ), n < f1 → n < f2 → natToCharsAux f1 n = natToCharsAux f2 n := by
  intro f1
  induction f1 with
  | zero => intro f2 n h1 _; exact absurd h1 (by omega)
  | succ g ih =>
    intro f2 n h1 h2
    cases f2 with
    | zero => exact absurd h2 (by omega)
    | succ h =>
      simp only [natToCharsAux]
      by_cases hn : n < 10
      · simp [hn]
      · have hd : n / 10 < n := Nat.div_lt_self (by omega) (by omega)
        simp only [if_neg hn]
        rw [ih h (n / 10) (by omega) (by omega)]

theorem natToChars_eq (n : ℕ) :
    natToChars n =
      if n < 10 then [toDigitChar n]
      else natToChars (n / 10) ++ [toDigitChar (n % 10)] := by
  by_cases hn : n < 10
  · simp [natToChars, natToCharsAux, hn]
  · have hd : n / 10 < n := Nat.div_lt_self (by omega) (by omega)
    have h2 : natToChars (n / 10) = natToCharsAux n (n / 10) :=
      natToCharsAux_congr (n / 10 + 1) n (n / 10) (by omega) (by omega)
    rw [if_neg hn, h2]
    show natToCharsAux (n + 1) n = _
    simp only [natToCharsAux, if_neg hn]

theorem toDigitChar_isDigit {d : ℕ} (h : d < 10) : (toDigitChar d).isDigit = true := by
  interval_cases d <;> decide

theorem toDigitChar_toNat {d : ℕ} (h : d < 10) : (toDigitChar d).toNat = 48 + d := by
  interval_cases d <;> decide

theorem natToChars_digits : ∀ n : ℕ, ∀ c ∈ natToChars n, c.isDigit = true := by
  intro n
  induction n using Nat.strong_induction_on with
  | _ n ih =>
    rw [natToChars_eq]
    by_cases hn : n < 10
    · simp only [if_pos hn, List.mem_singleton]
      intro c hc; subst hc; exact toDigitChar_isDigit hn
    · simp only [if_neg hn]
      intro c hc
      rcases List.mem_append.1 hc with h | h
      · exact ih (n / 10) (Nat.div_lt_self (by omega) (by omega)) c h
      · rw [List.mem_singleton] at h; subst h
        exact toDigitChar_isDigit (Nat.mod_lt _ (by omega))

theorem natToChars_ne_nil (n : ℕ) : natToChars n ≠ [] := by
  rw [natToChars_eq]; split <;> simp

theorem natToChars_length_pos (n : ℕ) : 1 ≤ (natToChars n).length := by
  have := natToChars_ne_nil n
  cases h : natToChars n with
  | nil => exact absurd h this
  | cons a l => simp

theorem charsToNat_natToChars : ∀ n : ℕ, charsToNat (natToChars n) = n := by
  intro n
  induction n using Nat.strong_induction_on with
  | _ n ih =>
    rw [natToChars_eq]
    by_cases hn : n < 10
    · simp only [if_pos hn, charsToNat, List.foldl_cons, List.foldl_nil]
      rw [toDigitChar_toNat hn]; omega
    · simp only [if_neg hn, charsToNat, List.foldl_append, List.foldl_cons, List.foldl_nil]
      have h1 : (natToChars (n / 10)).foldl (fun a c => 10 * a + (c.toNat - 48)) 0 = n / 10 :=
        ih (n / 10) (Nat.div_lt_self (by omega) (by omega))
      rw [h1, toDigitChar_toNat (Nat.mod_lt _ (by omega))]
      omega

theorem natToChars_lt : ∀ n : ℕ, n < 10 ^ (natToChars n).length := by
  intro n
  induction n using Nat.strong_induction_on with
  | _ n ih =>
    rw [natToChars_eq]
    by_cases hn : n < 10
    · simp [hn]
    · simp only [if_neg hn, List.length_append, List.length_singleton]
      have h1 := ih (n / 10) (Nat.div_lt_self (by omega) (by omega))
      have h2 := Nat.div_add_mod n 10
      have h3 : n % 10 < 10 := Nat.mod_lt _ (by omega)
      rw [pow_succ]
      have : n / 10 + 1 ≤ 10 ^ (natToChars (n / 10)).length := h1
      nlinarith [h1, h2, h3]

theorem natToChars_length_le : ∀ (n k : ℕ), 1 ≤ k → n < 10 ^ k → (natToChars n).length ≤ k := by
  intro n
  induction n using Nat.strong_induction_on with
  | _ n ih =>
    intro k hk hn
    rw [natToChars_eq]
    by_cases h10 : n < 10
    · simpa [h10] using hk
    · simp only [if_neg h10, List.length_append, List.length_singleton]
      have hk2 : 2 ≤ k := by
        by_contra hcon
        have : k = 1 := by omega
        subst this; simp at hn; omega
      have hdiv : n / 10 < 10 ^ (k - 1) := by
        rw [Nat.div_lt_iff_lt_mul (by omega)]
        calc n < 10 ^ k := hn
        _ = 10 ^ (k - 1) * 10 := by
            rw [← pow_succ]; congr 1; omega
      have := ih (n / 10) (Nat.div_lt_self (by omega) (by omega)) (k - 1) (by omega) hdiv
      omega

theorem le_natToChars : ∀ n : ℕ, 1 ≤ n → 10 ^ ((natToChars n).length - 1) ≤ n := by
  intro n
  induction n using Nat.strong_induction_on with
  | _ n ih =>
    intro h1
    rw [natToChars_eq]
    by_cases hn : n < 10
    · simpa [hn] using h1
    · simp only [if_neg hn, List.length_append, List.length_singleton]
      have hd1 : 1 ≤ n / 10 := by
        rw [Nat.le_div_iff_mul_le (by omega)]; omega
      have hrec := ih (n / 10) (Nat.div_lt_self (by omega) (by omega)) hd1
      have hLpos := natToChars_length_pos (n / 10)
      have hstep : (natToChars (n / 10)).length + 1 - 1 = ((natToChars (n / 10)).length - 1) + 1 := by
        omega
      rw [hstep, pow_succ]
      have hmul : 10 ^ ((natToChars (n / 10)).length - 1) * 10 ≤ (n / 10) * 10 :=
        Nat.mul_le_mul_right _ hrec
      have : n / 10 * 10 ≤ n := by
        have := Nat.div_add_mod n 10; omega
      omega

theorem charsToNat_zeros_append (z : ℕ) (l : List Char) :
    charsToNat (List.replicate z '0' ++ l) = charsToNat l := by
  induction z with
  | zero => rfl
  | succ z ih =>
    simp only [List.replicate_succ, List.cons_append, charsToNat, List.foldl_cons]
    have h0 : 10 * 0 + (('0' : Char).toNat - 48) = 0 := by decide
    rw [h0]
    exact ih

theorem charsToNat_padZeros (f : ℕ) (l : List Char) :
    charsToNat (padZeros f l) = charsToNat l :=
  charsToNat_zeros_append _ _

theorem padZeros_length {f : ℕ} {l : List Char} (h : l.length ≤ f) :
    (padZeros f l).length = f := by
  simp [padZeros]; omega

theorem padZeros_digits {f : ℕ} {l : List Char} (h : ∀ c ∈ l, c.isDigit = true) :
    ∀ c ∈ padZeros f l, c.isDigit = true := by
  intro c hc
  rcases List.mem_append.1 hc with hm | hm
  · have := List.eq_of_mem_replicate hm
    subst this; decide
  · exact h c hm

theorem isDigit_ne {c x : Char} (h : c.isDigit = true) (hx : x.isDigit = false) : c ≠ x := by
  intro he; subst he; rw [h] at hx; cases hx

theorem no_dot_of_digits {l : List Char} (h : ∀ c ∈ l, c.isDigit = true) : '.' ∉ l := by
  intro hm
  have := h _ hm
  exact absurd this (by decide)

theorem afterFirstDot_append {xs ys : List Char} (h : '.' ∉ xs) :
    afterFirstDot (xs ++ ys) = afterFirstDot ys := by
  induction xs with
  | nil => rfl
  | cons c t ih =>
    have hc : ¬c = '.' := by
      intro he; subst he; exact h (List.mem_cons_self _ _)
    simp only [List.cons_append, afterFirstDot, if_neg hc]
    exact ih (fun hm => h (List.mem_cons_of_mem _ hm))

theorem afterFirstDot_none {l : List Char} (h : '.' ∉ l) : afterFirstDot l = none := by
  induction l with
  | nil => rfl
  | cons c t ih =>
    have hc : ¬c = '.' := by
      intro he; subst he; exact h (List.mem_cons_self _ _)
    simp only [afterFirstDot, if_neg hc]
    exact ih (fun hm => h (List.mem_cons_of_mem _ hm))

theorem groupAux_mem : ∀ l : List Char, ∀ x ∈ groupAux l, x ∈ l ∨ x = ',' := by
  have key : ∀ (n : ℕ) (l : List Char), l.length ≤ n → ∀ x ∈ groupAux l, x ∈ l ∨ x = ',' := by
    intro n
    induction n with
    | zero =>
      intro l hl x hx
      have hnil : l = [] := List.eq_nil_of_length_eq_zero (by omega)
      subst hnil
      left; simp only [groupAux] at hx; exact hx
    | succ n ih =>
      intro l hl x hx
      rcases l with _ | ⟨a, _ | ⟨b, _ | ⟨c, _ | ⟨d, rest⟩⟩⟩⟩
      · left; simp only [groupAux] at hx; exact hx
      · left; simp only [groupAux] at hx; exact hx
      · left; simp only [groupAux] at hx; exact hx
      · left; simp only [groupAux] at hx; exact hx
      · simp only [groupAux, List.mem_cons] at hx
        rcases hx with hx | hx | hx | hx | hx
        · subst hx; left; simp
        · subst hx; left; simp
        · subst hx; left; simp
        · right; exact hx
        · have hlen : (d :: rest).length ≤ n := by
            simp only [List.length_cons] at hl ⊢; omega
          rcases ih (d :: rest) hlen x hx with hm | hm
          · left; simp only [List.mem_cons] at hm ⊢; tauto
          · right; exact hm
  intro l
  exact key l.length l le_rfl

theorem groupDigits_mem (l : List Char) : ∀ x ∈ groupDigits l, x ∈ l ∨ x = ',' := by
  intro x hx
  simp only [groupDigits, List.mem_reverse] at hx
  rcases groupAux_mem _ x hx with hm | hm
  · left; exact List.mem_reverse.1 hm
  · right; exact hm

theorem no_dot_groupDigits {l : List Char} (h : ∀ c ∈ l, c.isDigit = true) :
    '.' ∉ groupDigits l := by
  intro hm
  rcases groupDigits_mem l _ hm with hin | hc
  · exact no_dot_of_digits h hin
  · cases hc

theorem stripFracZeros_snd_le : ∀ (fp f : ℕ), (stripFracZeros fp f).2 ≤ f := by
  intro fp f
  induction f generalizing fp with
  | zero => simp [stripFracZeros]
  | succ f ih =>
    simp only [stripFracZeros]
    split
    · exact le_trans (ih (fp / 10)) (by omega)
    · exact le_refl _

theorem stripFracZeros_fst_lt : ∀ (fp f : ℕ), fp < 10 ^ f →
    (stripFracZeros fp f).1 < 10 ^ (stripFracZeros fp f).2 := by
  intro fp f
  induction f generalizing fp with
  | zero => intro h; simpa [stripFracZeros] using h
  | succ f ih =>
    intro h
    simp only [stripFracZeros]
    split
    · exact ih (fp / 10) (by
        rw [Nat.div_lt_iff_lt_mul (by omega)]
        calc fp < 10 ^ (f + 1) := h
        _ = 10 ^ f * 10 := by rw [pow_succ])
    · exact h

/-! ## Claim C4: the percentage formatter -/

/-- Shape of a locale-formatted number: a dot-free part, optionally
followed by a dot and the stripped fraction digits. -/
theorem jsToLocaleStringChars_shape (f : ℕ) (x : ℚ) :
    ∃ pre : List Char,
      '.' ∉ pre ∧
      (jsToLocaleStringChars f x = pre ∨
       ∃ ds, jsToLocaleStringChars f x = pre ++ '.' :: ds ∧
         ds.length = (stripFracZeros
           ((roundHalfUp (|x| * 10 ^ f)).toNat % 10 ^ f) f).2 ∧
         0 < ds.length ∧ ∀ c ∈ ds, c.isDigit = true) := by
  set a := (roundHalfUp (|x| * 10 ^ f)).toNat with ha
  refine ⟨(if x < 0 then ['-'] else []) ++ groupDigits (natToChars (a / 10 ^ f)), ?_, ?_⟩
  · intro hm
    rcases List.mem_append.1 hm with hm | hm
    · revert hm; split <;> simp
    · exact no_dot_groupDigits (natToChars_digits _) hm
  · by_cases hz : (stripFracZeros (a % 10 ^ f) f).2 = 0
    · left
      simp [jsToLocaleStringChars, ← ha, hz]
    · right
      have hfpos : 0 < (stripFracZeros (a % 10 ^ f) f).2 := Nat.pos_of_ne_zero hz
      have hfplt := stripFracZeros_fst_lt (a % 10 ^ f) f
        (Nat.mod_lt _ (by positivity))
      refine ⟨padZeros (stripFracZeros (a % 10 ^ f) f).2
          (natToChars (stripFracZeros (a % 10 ^ f) f).1), ?_, ?_, ?_, ?_⟩
      · simp [jsToLocaleStringChars, ← ha, hz]
      · exact padZeros_length (natToChars_length_le _ _ hfpos hfplt)
      · rw [padZeros_length (natToChars_length_le _ _ hfpos hfplt)]
        exact hfpos
      · exact padZeros_digits (natToChars_digits _)

/-- Decomposition of the characters of `fmtPct`. -/
theorem fmtPct_data (n : ℚ) :
    (fmtPct n).data =
      (if 0 ≤ n then ['+'] else []) ++ jsToLocaleStringChars 1 n ++ ['%'] := by
  by_cases h : 0 ≤ n <;>
    simp [fmtPct, h, strData_append, jsToLocaleString, strData_mk]

/-- C4: the percentage formatter renders its input with at most one
fractional digit and a trailing `%`, with an explicit leading `+`
exactly when the input is non-negative; in particular `5` formats as
`+5%` and `-3.25` as `-3.3%`. -/
theorem fmtPct_spec :
    (∀ n : ℚ, strEndsWith (fmtPct n) "%" = true) ∧
    (∀ n : ℚ, strStartsWith (fmtPct n) "+" = true ↔ 0 ≤ n) ∧
    (∀ (n : ℚ) (l : List Char), afterFirstDot (fmtPct n).data = some l →
      ∃ c, l = [c, '%'] ∧ c.isDigit = true) ∧
    fmtPct 5 = "+5%" ∧ fmtPct (-3.25 : ℚ) = "-3.3%" := by
  refine ⟨?_, ?_, ?_, ?_, ?_⟩
  · intro n
    simp only [strEndsWith, fmtPct_data]
    show (("%" : String).data.reverse.isPrefixOf _) = true
    simp [List.reverse_append, List.isPrefixOf]
  · intro n
    constructor
    · intro h
      by_contra hneg
      rw [strStartsWith, fmtPct_data, if_neg hneg] at h
      have hlt : n < 0 := lt_of_not_le hneg
      simp only [jsToLocaleStringChars, if_pos hlt, List.nil_append] at h
      simp [List.isPrefixOf] at h
    · intro h
      rw [strStartsWith, fmtPct_data, if_pos h]
      simp [List.isPrefixOf]
  · intro n l hl
    rw [fmtPct_data] at hl
    obtain ⟨pre, hpre, hcase⟩ := jsToLocaleStringChars_shape 1 n
    have hsign : '.' ∉ (if 0 ≤ n then ['+'] else []) := by
      split <;> simp
    rcases hcase with heq | ⟨ds, heq, hdslen, hdspos, hdsdig⟩
    · rw [heq] at hl
      rw [afterFirstDot_append (fun hm => by
            rcases List.mem_append.1 hm with hm | hm
            exacts [hsign hm, hpre hm]),
          afterFirstDot_none (by simp)] at hl
      cases hl
    · rw [heq] at hl
      rw [show ∀ A B ds C : List Char, A ++ (B ++ '.' :: ds) ++ C =
            (A ++ B) ++ '.' :: (ds ++ C) from fun A B ds C => by simp] at hl
      rw [afterFirstDot_append (fun hm => by
            rcases List.mem_append.1 hm with hm | hm
            exacts [hsign hm, hpre hm])] at hl
      have hdot : afterFirstDot ('.' :: (ds ++ ['%'])) = some (ds ++ ['%']) := by
        simp [afterFirstDot]
      rw [hdot, Option.some.injEq] at hl
      have hle := stripFracZeros_snd_le ((roundHalfUp (|n| * 10 ^ 1)).toNat % 10 ^ 1) 1
      have h1 : ds.length = 1 := by omega
      obtain ⟨c, rfl⟩ := List.length_eq_one.1 h1
      exact ⟨c, hl.symm, hdsdig c (List.mem_singleton_self c)⟩
  · with_unfolding_all decide
  · with_unfolding_all decide

/-- Witness for C4 at a concrete non-negative input. -/
theorem fmtPct_spec_witness :
    strEndsWith (fmtPct 7) "%" = true ∧ strStartsWith (fmtPct 7) "+" = true :=
  ⟨fmtPct_spec.1 7, (fmtPct_spec.2.1 7).mpr (by norm_num)⟩

/-! ## Claim C3: the tiered price formatter -/

/-- Shape and value of `toFixed` output for a positive argument. -/
theorem jsToFixedChars_pos (f : ℕ) (x : ℚ) (hf : 1 ≤ f) (hx : 0 < x) :
    ∃ ip fr : List Char,
      jsToFixedChars f x = ip ++ '.' :: fr ∧
      (∀ c ∈ ip, c.isDigit = true) ∧ (∀ c ∈ fr, c.isDigit = true) ∧
      fr.length = f ∧
      (charsToNat ip : ℤ) * 10 ^ f + charsToNat fr = roundHalfUp (x * 10 ^ f) := by
  set n := roundHalfUp (x * 10 ^ f) with hn
  have hn0 : 0 ≤ n := by
    rw [hn, roundHalfUp]
    refine Int.le_floor.mpr ?_
    push_cast
    positivity
  set a := n.natAbs with hA
  have hna : (a : ℤ) = n := Int.natAbs_of_nonneg hn0
  have hnlt : ¬n < 0 := by omega
  have hfz : ¬f = 0 := by omega
  refine ⟨natToChars (a / 10 ^ f), padZeros f (natToChars (a % 10 ^ f)), ?_, ?_, ?_, ?_, ?_⟩
  · simp [jsToFixedChars, ← hn, ← hA, hnlt, hfz]
  · exact natToChars_digits _
  · exact padZeros_digits (natToChars_digits _)
  · exact padZeros_length (natToChars_length_le _ _ hf (Nat.mod_lt _ (by positivity)))
  · rw [charsToNat_natToChars, charsToNat_padZeros, charsToNat_natToChars]
    calc ((a / 10 ^ f : ℕ) : ℤ) * 10 ^ f + ((a % 10 ^ f : ℕ) : ℤ)
        = ((10 ^ f * (a / 10 ^ f) + a % 10 ^ f : ℕ) : ℤ) := by push_cast; ring
      _ = (a : ℤ) := by rw [Nat.div_add_mod]
      _ = n := hna

theorem pow10NeededAux_spec :
    ∀ (fuel num den : ℕ), 1 ≤ num → den ≤ num * 10 ^ fuel →
      den ≤ num * 10 ^ pow10NeededAux fuel num den ∧
      (0 < pow10NeededAux fuel num den →
        num * 10 ^ (pow10NeededAux fuel num den - 1) < den) := by
  intro fuel
  induction fuel with
  | zero =>
    intro num den h1 hb
    simp only [pow10NeededAux]
    exact ⟨by simpa using hb, by omega⟩
  | succ f ih =>
    intro num den h1 hb
    simp only [pow10NeededAux]
    rw [if_neg (by omega : ¬num = 0)]
    by_cases hd : den ≤ num
    · rw [if_pos hd]
      exact ⟨by simpa using hd, by omega⟩
    · rw [if_neg hd]
      have hb2 : den ≤ num * 10 * 10 ^ f := by
        have hrw : num * 10 ^ (f + 1) = num * 10 * 10 ^ f := by ring
        rw [hrw] at hb
        exact hb
      obtain ⟨ha, hmin⟩ := ih (num * 10) den (by omega) hb2
      constructor
      · calc den ≤ num * 10 * 10 ^ pow10NeededAux f (num * 10) den := ha
          _ = num * 10 ^ (pow10NeededAux f (num * 10) den + 1) := by ring
      · intro _
        simp only [Nat.add_sub_cancel]
        by_cases hk : pow10NeededAux f (num * 10) den = 0
        · rw [hk]
          simpa using (by omega : num < den)
        · have hlt := hmin (by omega)
          have heq : num * 10 ^ pow10NeededAux f (num * 10) den =
              num * 10 * 10 ^ (pow10NeededAux f (num * 10) den - 1) := by
            conv_lhs => rw [show pow10NeededAux f (num * 10) den =
              (pow10NeededAux f (num * 10) den - 1) + 1 by omega]
            ring
          rw [heq]
          exact hlt

theorem pow10Needed_spec (num den : ℕ) (h1 : 1 ≤ num) :
    den ≤ num * 10 ^ pow10Needed num den ∧
    (0 < pow10Needed num den → num * 10 ^ (pow10Needed num den - 1) < den) := by
  have hbound : den ≤ num * 10 ^ den := by
    have h2 : den < 10 ^ den := Nat.lt_pow_self (by omega) den
    calc den ≤ 10 ^ den := le_of_lt h2
      _ ≤ num * 10 ^ den := Nat.le_mul_of_pos_left _ (by omega)
  exact pow10NeededAux_spec den num den h1 hbound

/-- Correctness of the base-10 logarithm floor: the bracketing powers
of ten around a positive rational. -/
theorem qLog10Floor_spec (x : ℚ) (hx : 0 < x) :
    (10 : ℚ) ^ qLog10Floor x ≤ x ∧ x < (10 : ℚ) ^ (qLog10Floor x + 1) := by
  by_cases h1 : 1 ≤ x
  · set m := (⌊x⌋).toNat with hm
    have hfl : 0 ≤ ⌊x⌋ := Int.floor_nonneg.mpr (by linarith)
    have hmz : (m : ℤ) = ⌊x⌋ := Int.toNat_of_nonneg hfl
    have hm1 : 1 ≤ m := by
      have hfl1 : (1 : ℤ) ≤ ⌊x⌋ := Int.le_floor.mpr (by exact_mod_cast h1)
      omega
    set L := (natToChars m).length with hL
    have hLpos : 1 ≤ L := natToChars_length_pos m
    have hlow : 10 ^ (L - 1) ≤ m := le_natToChars m hm1
    have hupp : m < 10 ^ L := natToChars_lt m
    rw [qLog10Floor, if_pos h1, ← hm, ← hL]
    constructor
    · have hcast : (10 : ℚ) ^ ((L : ℤ) - 1) = ((10 ^ (L - 1) : ℕ) : ℚ) := by
        rw [show (L : ℤ) - 1 = ((L - 1 : ℕ) : ℤ) by omega, zpow_natCast]
        push_cast
        ring
      rw [hcast]
      have hmx : (m : ℚ) ≤ x := by
        have hq : ((⌊x⌋ : ℤ) : ℚ) ≤ x := Int.floor_le x
        rw [← hmz] at hq
        exact_mod_cast hq
      calc ((10 ^ (L - 1) : ℕ) : ℚ) ≤ (m : ℚ) := by exact_mod_cast hlow
        _ ≤ x := hmx
    · have hcast : (10 : ℚ) ^ ((L : ℤ) - 1 + 1) = ((10 ^ L : ℕ) : ℚ) := by
        rw [show (L : ℤ) - 1 + 1 = (L : ℤ) by ring, zpow_natCast]
        push_cast
        ring
      rw [hcast]
      have hxlt : x < (⌊x⌋ : ℚ) + 1 := Int.lt_floor_add_one x
      have hstep : (⌊x⌋ : ℚ) + 1 ≤ ((10 ^ L : ℕ) : ℚ) := by
        have hupz : (m : ℤ) < ((10 ^ L : ℕ) : ℤ) := by exact_mod_cast hupp
        have hz : ⌊x⌋ + 1 ≤ ((10 ^ L : ℕ) : ℤ) := by omega
        exact_mod_cast hz
      linarith
  · push_neg at h1
    rw [qLog10Floor, if_neg (not_le.mpr h1)]
    set num := x.num.toNat with hnum
    have hxnum : 0 < x.num := Rat.num_pos.mpr hx
    have hnumz : (num : ℤ) = x.num := Int.toNat_of_nonneg (by omega)
    have hnum1 : 1 ≤ num := by omega
    have hdpos : 0 < x.den := x.den_pos
    have hnd : num < x.den := by
      have hlt : x.num < (x.den : ℤ) := Rat.lt_one_iff_num_lt_denom.mp h1
      omega
    obtain ⟨hup, hmin⟩ := pow10Needed_spec num x.den hnum1
    set k := pow10Needed num x.den with hk
    have hk1 : 1 ≤ k := by
      by_contra hc
      have hk0 : k = 0 := by omega
      rw [hk0] at hup
      simp at hup
      omega
    have hxeq : x = (num : ℚ) / (x.den : ℚ) := by
      conv_lhs => rw [← Rat.num_div_den x]
      congr 1
      exact_mod_cast hnumz.symm
    constructor
    · rw [zpow_neg, zpow_natCast, inv_eq_one_div, hxeq,
        div_le_div_iff₀ (by positivity) (by positivity)]
      have hc : (x.den : ℚ) ≤ (num : ℚ) * 10 ^ k := by exact_mod_cast hup
      linarith
    · rw [show -(k : ℤ) + 1 = -((k - 1 : ℕ) : ℤ) by omega,
        zpow_neg, zpow_natCast, inv_eq_one_div, hxeq,
        div_lt_div_iff₀ (by positivity) (by positivity)]
      have hc : (num : ℚ) * 10 ^ (k - 1) < (x.den : ℚ) := by
        exact_mod_cast hmin (by omega)
      linarith

/-- Bounds on the rounded mantissa: it always has exactly `f + 1`
decimal digits. -/
theorem jsExpParts_bounds (f : ℕ) (x : ℚ) (hx : 0 < x) :
    10 ^ f ≤ (jsExpParts f x).1 ∧ (jsExpParts f x).1 < 10 ^ (f + 1) := by
  obtain ⟨hlo, hhi⟩ := qLog10Floor_spec x hx
  have hten : (10 : ℚ) ≠ 0 := by norm_num
  set e := qLog10Floor x with he
  set v := x * (10 : ℚ) ^ ((f : ℤ) - e) with hv
  have hp : (0 : ℚ) < (10 : ℚ) ^ ((f : ℤ) - e) := zpow_pos (by norm_num) _
  have hvlo : ((10 ^ f : ℕ) : ℚ) ≤ v := by
    have h1 : (10 : ℚ) ^ e * (10 : ℚ) ^ ((f : ℤ) - e) ≤ v :=
      mul_le_mul_of_nonneg_right hlo (le_of_lt hp)
    calc ((10 ^ f : ℕ) : ℚ) = (10 : ℚ) ^ ((f : ℕ) : ℤ) := by
          rw [zpow_natCast]; push_cast; ring
      _ = (10 : ℚ) ^ (e + ((f : ℤ) - e)) := by congr 1; ring
      _ = (10 : ℚ) ^ e * (10 : ℚ) ^ ((f : ℤ) - e) := zpow_add₀ hten _ _
      _ ≤ v := h1
  have hvhi : v < ((10 ^ (f + 1) : ℕ) : ℚ) := by
    have h1 : v < (10 : ℚ) ^ (e + 1) * (10 : ℚ) ^ ((f : ℤ) - e) :=
      mul_lt_mul_of_pos_right hhi hp
    calc v < (10 : ℚ) ^ (e + 1) * (10 : ℚ) ^ ((f : ℤ) - e) := h1
      _ = (10 : ℚ) ^ ((e + 1) + ((f : ℤ) - e)) := (zpow_add₀ hten _ _).symm
      _ = (10 : ℚ) ^ (((f + 1 : ℕ) : ℤ)) := by congr 1; push_cast; ring
      _ = ((10 ^ (f + 1) : ℕ) : ℚ) := by rw [zpow_natCast]; push_cast; ring
  set m0 := (roundHalfUp v).toNat with hm0
  have hrlo : (10 ^ f : ℕ) ≤ roundHalfUp v := by
    refine Int.le_floor.mpr ?_
    push_cast
    push_cast at hvlo
    linarith
  have hrhi : roundHalfUp v ≤ (10 ^ (f + 1) : ℕ) := by
    have h1 : roundHalfUp v < (10 ^ (f + 1) : ℕ) + 1 := by
      refine Int.floor_lt.mpr ?_
      push_cast
      push_cast at hvhi
      linarith
    omega
  have hm0z : (m0 : ℤ) = roundHalfUp v := by
    rw [hm0]
    exact Int.toNat_of_nonneg (le_trans (by positivity) hrlo)
  have hm0lo : 10 ^ f ≤ m0 := by omega
  have hm0hi : m0 ≤ 10 ^ (f + 1) := by omega
  have hparts : (jsExpParts f x).1 =
      if 10 ^ (f + 1) ≤ m0 then m0 / 10 else m0 := by
    simp only [jsExpParts, ← he, ← hv, ← hm0]
    split <;> rfl
  rw [hparts]
  by_cases hc : 10 ^ (f + 1) ≤ m0
  · rw [if_pos hc]
    have hm0eq : m0 = 10 ^ (f + 1) := by omega
    have hdiv : m0 / 10 = 10 ^ f := by
      rw [hm0eq, pow_succ, Nat.mul_div_cancel _ (by omega)]
    rw [hdiv]
    exact ⟨le_refl _, Nat.pow_lt_pow_succ (by omega)⟩
  · rw [if_neg hc]
    exact ⟨hm0lo, by omega⟩

/-- Shape of `toExponential(2)` output for a positive argument:
one digit, a dot, two digits, `e`, a sign, then the exponent digits;
the three mantissa digits read back as a number in `[100, 1000)`. -/
theorem jsToExponentialChars_two (x : ℚ) (hx : 0 < x) :
    ∃ (d0 d1 d2 : Char) (es : List Char),
      jsToExponentialChars 2 x = d0 :: '.' :: d1 :: d2 :: 'e' :: es ∧
      d0.isDigit = true ∧ d1.isDigit = true ∧ d2.isDigit = true ∧
      (es.head? = some '-' ∨ es.head? = some '+') ∧
      100 ≤ charsToNat [d0, d1, d2] ∧ charsToNat [d0, d1, d2] < 1000 := by
  obtain ⟨hmlo, hmhi⟩ := jsExpParts_bounds 2 x hx
  set m := (jsExpParts 2 x).1 with hm
  have hlo100 : 100 ≤ m := by
    have : (10 : ℕ) ^ 2 = 100 := by norm_num
    omega
  have hhi1000 : m < 1000 := by
    have : (10 : ℕ) ^ (2 + 1) = 1000 := by norm_num
    omega
  have hlen : (natToChars m).length = 3 := by
    have hle : (natToChars m).length ≤ 3 :=
      natToChars_length_le m 3 (by norm_num) (by norm_num; omega)
    have hgt := natToChars_lt m
    by_contra hne
    have hle2 : (natToChars m).length ≤ 2 := by omega
    have hpow : (10 : ℕ) ^ (natToChars m).length ≤ 10 ^ 2 :=
      Nat.pow_le_pow_right (by omega) hle2
    have : m < 100 := by
      calc m < 10 ^ (natToChars m).length := hgt
        _ ≤ 10 ^ 2 := hpow
        _ = 100 := by norm_num
    omega
  obtain ⟨d0, d1, d2, hd⟩ := List.length_eq_three.1 hlen
  have hdigs := natToChars_digits m
  rw [hd] at hdigs
  refine ⟨d0, d1, d2,
    (if (jsExpParts 2 x).2 < 0 then '-' else '+') :: natToChars (jsExpParts 2 x).2.natAbs,
    ?_, ?_, ?_, ?_, ?_, ?_, ?_⟩
  · rw [jsToExponentialChars, if_neg (not_le.mpr hx), ← hm, hd]
    rfl
  · exact hdigs d0 (by simp)
  · exact hdigs d1 (by simp)
  · exact hdigs d2 (by simp)
  · by_cases hsg : (jsExpParts 2 x).2 < 0
    · left; simp [hsg]
    · right; simp [hsg]
  · rw [← hd, charsToNat_natToChars]; exact hlo100
  · rw [← hd, charsToNat_natToChars]; exact hhi1000

/-- C3: the price formatter uses 4 fractional digits at or above 0.01,
8 fractional digits between 0.000001 and 0.01, scientific notation
with 2 fractional digits for positive values below 0.000001, and the
fixed `$0.00` at zero; the rendered digits carry the correctly rounded
value.  The three spec examples evaluate as stated. -/
theorem fmtPrice_tiered :
    (∀ p : ℚ, 1/100 ≤ p → ∃ ip fr : List Char,
        (fmtPrice p).data = '$' :: (ip ++ '.' :: fr) ∧
        (∀ c ∈ ip, c.isDigit = true) ∧ (∀ c ∈ fr, c.isDigit = true) ∧
        fr.length = 4 ∧
        (charsToNat ip : ℤ) * 10 ^ 4 + charsToNat fr = roundHalfUp (p * 10 ^ 4)) ∧
    (∀ p : ℚ, 1/1000000 ≤ p → p < 1/100 → ∃ ip fr : List Char,
        (fmtPrice p).data = '$' :: (ip ++ '.' :: fr) ∧
        (∀ c ∈ ip, c.isDigit = true) ∧ (∀ c ∈ fr, c.isDigit = true) ∧
        fr.length = 8 ∧
        (charsToNat ip : ℤ) * 10 ^ 8 + charsToNat fr = roundHalfUp (p * 10 ^ 8)) ∧
    (∀ p : ℚ, 0 < p → p < 1/1000000 → ∃ (d0 d1 d2 : Char) (es : List Char),
        (fmtPrice p).data = '$' :: d0 :: '.' :: d1 :: d2 :: 'e' :: es ∧
        d0.isDigit = true ∧ d1.isDigit = true ∧ d2.isDigit = true ∧
        (es.head? = some '-' ∨ es.head? = some '+') ∧
        100 ≤ charsToNat [d0, d1, d2] ∧ charsToNat [d0, d1, d2] < 1000) ∧
    fmtPrice 0 = "$0.00" ∧
    fmtPrice (123/1000000) = "$0.00012300" ∧
    fmtPrice (1/2) = "$0.5000" ∧
    fmtPrice (1/10000000) = "$1.00e-7" := by
  refine ⟨?_, ?_, ?_, ?_, ?_, ?_, ?_⟩
  · intro p hp
    have hdata : (fmtPrice p).data = '$' :: jsToFixedChars 4 p := by
      simp only [fmtPrice, if_pos hp]
      simp [strData_append, jsToFixed, strData_mk]
    obtain ⟨ip, fr, he, hip, hfr, hlen, hval⟩ :=
      jsToFixedChars_pos 4 p (by norm_num) (lt_of_lt_of_le (by norm_num) hp)
    exact ⟨ip, fr, by rw [hdata, he], hip, hfr, hlen, hval⟩
  · intro p hp1 hp2
    have hdata : (fmtPrice p).data = '$' :: jsToFixedChars 8 p := by
      simp only [fmtPrice, if_neg (not_le.mpr hp2), if_pos hp1]
      simp [strData_append, jsToFixed, strData_mk]
    obtain ⟨ip, fr, he, hip, hfr, hlen, hval⟩ :=
      jsToFixedChars_pos 8 p (by norm_num) (lt_of_lt_of_le (by norm_num) hp1)
    exact ⟨ip, fr, by rw [hdata, he], hip, hfr, hlen, hval⟩
  · intro p hp0 hp6
    have hdata : (fmtPrice p).data = '$' :: jsToExponentialChars 2 p := by
      simp only [fmtPrice,
        if_neg (not_le.mpr (lt_trans hp6 (show (1/1000000 : ℚ) < 1/100 by norm_num))),
        if_neg (not_le.mpr hp6), if_pos hp0]
      simp [strData_append, jsToExponential, strData_mk]
    obtain ⟨d0, d1, d2, es, he, h0, h1, h2, hsg, hlo, hhi⟩ :=
      jsToExponentialChars_two p hp0
    exact ⟨d0, d1, d2, es, by rw [hdata, he], h0, h1, h2, hsg, hlo, hhi⟩
  · with_unfolding_all decide
  · with_unfolding_all decide
  · with_unfolding_all decide
  · with_unfolding_all decide

/-- Witness for C3: the first tier applied at 1/2. -/
theorem fmtPrice_tiered_witness :
    ∃ ip fr : List Char,
      (fmtPrice (1/2)).data = '$' :: (ip ++ '.' :: fr) ∧
      (∀ c ∈ ip, c.isDigit = true) ∧ (∀ c ∈ fr, c.isDigit = true) ∧
      fr.length = 4 ∧
      (charsToNat ip : ℤ) * 10 ^ 4 + charsToNat fr = roundHalfUp (1/2 * 10 ^ 4) :=
  fmtPrice_tiered.1 (1/2) (by norm_num)

/-! ## Claim C10: serialize-then-parse round trip of the cache slot -/

theorem strMk_data (s : String) : String.mk s.data = s := by
  cases s; rfl

theorem natToChars_head (n : ℕ) :
    ∃ d t, natToChars n = d :: t ∧ d.isDigit = true := by
  cases h : natToChars n with
  | nil => exact absurd h (natToChars_ne_nil n)
  | cons d t =>
    refine ⟨d, t, rfl, natToChars_digits n d ?_⟩
    rw [h]
    exact List.mem_cons_self _ _

theorem takeWhile_digits {xs ys : List Char} (hxs : ∀ c ∈ xs, c.isDigit = true)
    (hys : ∀ c, ys.head? = some c → c.isDigit = false) :
    (xs ++ ys).takeWhile (fun c => c.isDigit) = xs ∧
    (xs ++ ys).dropWhile (fun c => c.isDigit) = ys := by
  induction xs with
  | nil =>
    simp only [List.nil_append]
    cases ys with
    | nil => simp
    | cons c t =>
      have hc := hys c rfl
      simp [List.takeWhile_cons, List.dropWhile_cons, hc]
  | cons c t ih =>
    have hc := hxs c (List.mem_cons_self _ _)
    obtain ⟨h1, h2⟩ := ih (fun x hx => hxs x (List.mem_cons_of_mem _ hx))
    simp [List.takeWhile_cons, List.dropWhile_cons, hc, h1, h2]

theorem sepAfterB_head {rest : List Char} (h : sepAfterB rest = true) :
    ∀ c, rest.head? = some c →
      c.isDigit = false ∧ c ≠ '.' ∧ c ≠ 'e' ∧ c ≠ 'E' := by
  intro c hc
  cases rest with
  | nil => cases hc
  | cons d t =>
    simp only [List.head?_cons, Option.some.injEq] at hc
    subst hc
    simp only [sepAfterB, Bool.or_eq_true, beq_iff_eq] at h
    rcases h with (h | h) | h <;> subst h <;>
      exact ⟨by decide, by decide, by decide, by decide⟩

theorem parseFracPart_no_dot {l2 : List Char} (h : ¬l2.head? = some '.') :
    parseFracPart l2 = some (0, l2) := by
  rw [parseFracPart, if_neg h]

theorem parseFracPart_dot {pad rest : List Char} (hdig : ∀ c ∈ pad, c.isDigit = true)
    (hne : pad ≠ []) (hrest : ∀ c, rest.head? = some c → c.isDigit = false) :
    parseFracPart ('.' :: (pad ++ rest)) =
      some ((charsToNat pad : ℚ) / 10 ^ pad.length, rest) := by
  obtain ⟨hT, hD⟩ := takeWhile_digits hdig hrest
  simp [parseFracPart, hT, hD, hne]

theorem parseExpPart_no_e {l3 : List Char}
    (h : ¬(l3.head? = some 'e' ∨ l3.head? = some 'E')) :
    parseExpPart l3 = some (0, l3) := by
  rw [parseExpPart, if_neg h]

/-- Evaluation of the unsigned number parser on a printed decimal. -/
theorem parseUnsignedNumber_eval (a k : ℕ) (rest : List Char)
    (hsep : sepAfterB rest = true) :
    parseUnsignedNumber (natToChars (a / 10 ^ k) ++
        ((if k = 0 then [] else '.' :: padZeros k (natToChars (a % 10 ^ k))) ++ rest)) =
      some ((a : ℚ) / 10 ^ k, rest) := by
  have hsep' := sepAfterB_head hsep
  have hnodot : ¬rest.head? = some '.' := by
    cases rest with
    | nil => simp
    | cons c t =>
      simp only [List.head?_cons, Option.some.injEq]
      exact (hsep' c rfl).2.1
  have hnoe : ¬(rest.head? = some 'e' ∨ rest.head? = some 'E') := by
    rintro (he | he) <;> cases rest with
    | nil => cases he
    | cons c t =>
      simp only [List.head?_cons, Option.some.injEq] at he
      first
      | exact (hsep' c rfl).2.2.1 he
      | exact (hsep' c rfl).2.2.2 he
  by_cases hk : k = 0
  · subst hk
    show parseUnsignedNumber (natToChars (a / 10 ^ 0) ++ ([] ++ rest)) =
      some ((a : ℚ) / 10 ^ 0, rest)
    simp only [pow_zero, Nat.div_one, List.nil_append]
    obtain ⟨hTake, hDrop⟩ :=
      takeWhile_digits (natToChars_digits a) (fun c hc => (hsep' c hc).1)
    simp only [parseUnsignedNumber, hTake, hDrop, if_neg (natToChars_ne_nil a),
      parseFracPart_no_dot hnodot, parseExpPart_no_e hnoe, charsToNat_natToChars]
    norm_num
  · have hk1 : 1 ≤ k := by omega
    rw [if_neg hk]
    have hpadlen : (padZeros k (natToChars (a % 10 ^ k))).length = k :=
      padZeros_length (natToChars_length_le _ _ hk1 (Nat.mod_lt _ (by positivity)))
    have hpadne : padZeros k (natToChars (a % 10 ^ k)) ≠ [] := by
      intro hnil
      rw [hnil] at hpadlen
      simp at hpadlen
      omega
    obtain ⟨hTake, hDrop⟩ :=
      takeWhile_digits (natToChars_digits (a / 10 ^ k))
        (show ∀ c, ('.' :: (padZeros k (natToChars (a % 10 ^ k)) ++ rest)).head? = some c →
            c.isDigit = false by
          intro c hc
          simp only [List.head?_cons, Option.some.injEq] at hc
          subst hc
          decide)
    simp only [List.cons_append] at hTake hDrop ⊢
    simp only [parseUnsignedNumber, hTake, hDrop, if_neg (natToChars_ne_nil _),
      parseFracPart_dot (padZeros_digits (natToChars_digits (a % 10 ^ k))) hpadne
        (fun c hc => (hsep' c hc).1),
      parseExpPart_no_e hnoe, charsToNat_natToChars, charsToNat_padZeros, hpadlen]
    have hqk : ((10 : ℚ) ^ k) ≠ 0 := by positivity
    have hnat : (10 : ℕ) ^ k * (a / 10 ^ k) + a % 10 ^ k = a := Nat.div_add_mod a (10 ^ k)
    have hcast : (a : ℚ) = ((10 : ℕ) ^ k * (a / 10 ^ k) + a % 10 ^ k : ℕ) := by
      exact_mod_cast hnat.symm
    rw [zpow_zero, mul_one]
    have hval : ((a / 10 ^ k : ℕ) : ℚ) + ((a % 10 ^ k : ℕ) : ℚ) / 10 ^ k = (a : ℚ) / 10 ^ k := by
      rw [eq_div_iff hqk, add_mul, div_mul_cancel₀ _ hqk, hcast]
      push_cast
      ring
    rw [hval]

/-- Parsing back a printed JavaScript number recovers the value. -/
theorem parseNumber_jsNumRepr (q : ℚ) (hq : decRepB q = true) (rest : List Char)
    (hsep : sepAfterB rest = true) :
    parseNumber (jsNumReprChars q ++ rest) = some (q, rest) := by
  obtain ⟨k, hk⟩ := Option.isSome_iff_exists.mp hq
  have hbeq := List.find?_some hk
  have hden : (q * 10 ^ k).den = 1 := by simpa using hbeq
  have hqval : ((q * 10 ^ k).num : ℚ) = q * 10 ^ k := by
    conv_rhs => rw [← Rat.num_div_den (q * 10 ^ k)]
    rw [hden]
    simp
  have hqk : ((10 : ℚ) ^ k) ≠ 0 := by positivity
  have hqeq : q = ((q * 10 ^ k).num : ℚ) / 10 ^ k := by
    rw [hqval]
    field_simp
  simp only [jsNumReprChars, hk]
  set n := (q * 10 ^ k).num with hn
  set a := n.natAbs with hA
  by_cases hneg : n < 0
  · simp only [if_pos hneg]
    rw [show (['-'] ++ natToChars (a / 10 ^ k) ++
          (if k = 0 then [] else '.' :: padZeros k (natToChars (a % 10 ^ k)))) ++ rest
        = '-' :: (natToChars (a / 10 ^ k) ++
          ((if k = 0 then [] else '.' :: padZeros k (natToChars (a % 10 ^ k))) ++ rest))
      from by simp]
    simp only [parseNumber, List.head?_cons, Option.some.injEq, if_pos rfl, List.tail_cons]
    rw [parseUnsignedNumber_eval a k rest hsep]
    have hna : (a : ℤ) = -n := by omega
    have hcast : (a : ℚ) = -((n : ℤ) : ℚ) := by exact_mod_cast hna
    have hval : q = -((a : ℚ) / 10 ^ k) := by
      rw [hcast, hqeq]
      ring
    simp only [if_true]
    rw [← hval]
  · simp only [if_neg hneg]
    rw [show (([] : List Char) ++ natToChars (a / 10 ^ k) ++
          (if k = 0 then [] else '.' :: padZeros k (natToChars (a % 10 ^ k)))) ++ rest
        = natToChars (a / 10 ^ k) ++
          ((if k = 0 then [] else '.' :: padZeros k (natToChars (a % 10 ^ k))) ++ rest)
      from by simp]
    obtain ⟨d, t, hd, hdig⟩ := natToChars_head (a / 10 ^ k)
    have hhead : ¬((natToChars (a / 10 ^ k) ++
        ((if k = 0 then [] else '.' :: padZeros k (natToChars (a % 10 ^ k))) ++ rest)).head?
          = some '-') := by
      rw [hd]
      simp only [List.cons_append, List.head?_cons, Option.some.injEq]
      exact isDigit_ne hdig (by decide)
    simp only [parseNumber, if_neg hhead]
    rw [parseUnsignedNumber_eval a k rest hsep]
    have hna : (a : ℤ) = n := by omega
    have hcast : (a : ℚ) = ((n : ℤ) : ℚ) := by exact_mod_cast hna
    have hval : q = (a : ℚ) / 10 ^ k := by
      rw [hcast, hqeq]
    rw [← hval]

theorem hexVal_hexDigitChar (n : ℕ) (h : n < 16) :
    hexVal (hexDigitChar n) = some n := by
  interval_cases n <;> decide

theorem foldr_esc_append (l : List Char) (init X : List Char) :
    (l.foldr (fun c acc => escChar c ++ acc) init) ++ X =
      l.foldr (fun c acc => escChar c ++ acc) (init ++ X) := by
  induction l with
  | nil => rfl
  | cons c t ih => simp [List.foldr_cons, List.append_assoc, ih]

theorem parseStringBody_cons_other (c : Char) (l : List Char)
    (h1 : ¬c = '"') (h2 : ¬c = '\\') :
    parseStringBody (c :: l) =
      match parseStringBody l with
      | some (s, r) => some (c :: s, r)
      | none => none := by
  rw [parseStringBody.eq_def]
  split <;> simp_all

/-- Parsing back the escaped characters recovers the original string
body. -/
theorem parseStringBody_foldr : ∀ (s rest : List Char),
    parseStringBody (s.foldr (fun c acc => escChar c ++ acc) ('"' :: rest)) =
      some (s, rest) := by
  intro s
  induction s with
  | nil => intro rest; rfl
  | cons c t ih =>
    intro rest
    simp only [List.foldr_cons]
    by_cases h1 : c = '"'
    · subst h1
      rw [show escChar '"' = ['\\', '"'] from rfl]
      simp [parseStringBody, escCode, ih]
    · by_cases h2 : c = '\\'
      · subst h2
        rw [show escChar '\\' = ['\\', '\\'] from rfl]
        simp [parseStringBody, escCode, ih]
      · by_cases h3 : c = '\x08'
        · subst h3
          rw [show escChar '\x08' = ['\\', 'b'] from rfl]
          simp [parseStringBody, escCode, ih]
        · by_cases h4 : c = '\t'
          · subst h4
            rw [show escChar '\t' = ['\\', 't'] from rfl]
            simp [parseStringBody, escCode, ih]
          · by_cases h5 : c = '\n'
            · subst h5
              rw [show escChar '\n' = ['\\', 'n'] from rfl]
              simp [parseStringBody, escCode, ih]
            · by_cases h6 : c = '\x0c'
              · subst h6
                rw [show escChar '\x0c' = ['\\', 'f'] from rfl]
                simp [parseStringBody, escCode, ih]
              · by_cases h7 : c = '\x0d'
                · subst h7
                  rw [show escChar '\x0d' = ['\\', 'r'] from rfl]
                  simp [parseStringBody, escCode, ih]
                · by_cases h8 : c.toNat < 32
                  · have hhi : hexVal (hexDigitChar (c.toNat / 16)) =
                        some (c.toNat / 16) :=
                      hexVal_hexDigitChar _ (by omega)
                    have hlo : hexVal (hexDigitChar (c.toNat % 16)) =
                        some (c.toNat % 16) :=
                      hexVal_hexDigitChar _ (Nat.mod_lt _ (by omega))
                    rw [show escChar c = ['\\', 'u', '0', '0',
                        hexDigitChar (c.toNat / 16), hexDigitChar (c.toNat % 16)] from by
                      simp [escChar, h1, h2, h3, h4, h5, h6, h7, h8]]
                    simp only [List.cons_append, List.nil_append]
                    simp only [parseStringBody, hhi, hlo,
                      show hexVal '0' = some 0 from by decide, ih]
                    have hval : ((0 * 16 + 0) * 16 + c.toNat / 16) * 16 + c.toNat % 16
                        = c.toNat := by omega
                    rw [hval, Char.ofNat_toNat]
                  · rw [show escChar c = [c] from by
                        simp [escChar, h1, h2, h3, h4, h5, h6, h7, h8]]
                    rw [show ([c] : List Char) ++
                        t.foldr (fun c acc => escChar c ++ acc) ('"' :: rest) =
                        c :: t.foldr (fun c acc => escChar c ++ acc) ('"' :: rest) from rfl]
                    rw [parseStringBody_cons_other c _ h1 h2, ih]

/-- Parsing a printed string literal body recovers the string. -/
theorem parseStringBody_strLit (s : String) (X : List Char) :
    parseStringBody (s.data.foldr (fun c acc => escChar c ++ acc) ['"'] ++ X) =
      some (s.data, X) := by
  rw [foldr_esc_append]
  exact parseStringBody_foldr s.data X

theorem foldr_esc_length (l : List Char) (init : List Char) :
    init.length ≤ (l.foldr (fun c acc => escChar c ++ acc) init).length := by
  induction l with
  | nil => exact le_refl _
  | cons c t ih => simp only [List.foldr_cons, List.length_append]; omega

theorem strLitChars_length (s : String) : 2 ≤ (strLitChars s).length := by
  have := foldr_esc_length s.data ['"']
  simp only [strLitChars, List.length_cons]
  simp at this
  omega

theorem natToChars_head_digit : ∀ n : ℕ, ∃ d t, natToChars n = toDigitChar d :: t ∧ d < 10 := by
  intro n
  induction n using Nat.strong_induction_on with
  | _ n ih =>
    rw [natToChars_eq]
    by_cases hn : n < 10
    · rw [if_pos hn]
      exact ⟨n, [], rfl, hn⟩
    · rw [if_neg hn]
      obtain ⟨d, t, hd, hlt⟩ := ih (n / 10) (Nat.div_lt_self (by omega) (by omega))
      refine ⟨d, t ++ [toDigitChar (n % 10)], ?_, hlt⟩
      rw [hd]
      rfl

theorem jChars_head (j : Json) :
    ∃ c t, jChars j = c :: t ∧
      (c = 'n' ∨ c = 't' ∨ c = 'f' ∨ c = '"' ∨ c = '[' ∨ c = '\x7b' ∨ c = '?' ∨
        c = '-' ∨ ∃ d, d < 10 ∧ c = toDigitChar d) := by
  cases j with
  | null => exact ⟨'n', _, rfl, by simp⟩
  | bool b =>
    cases b
    · exact ⟨'f', _, rfl, by simp⟩
    · exact ⟨'t', _, rfl, by simp⟩
  | num q =>
    cases hk : decKExp q with
    | none => exact ⟨'?', [], by simp [jChars, jsNumReprChars, hk], by simp⟩
    | some k =>
      simp only [jChars, jsNumReprChars, hk]
      by_cases hneg : (q * 10 ^ k).num < 0
      · rw [if_pos hneg]
        exact ⟨'-', _, rfl, by simp⟩
      · rw [if_neg hneg]
        obtain ⟨d, t2, hd, hlt⟩ :=
          natToChars_head_digit ((q * 10 ^ k).num.natAbs / 10 ^ k)
        refine ⟨toDigitChar d, t2 ++ (if k = 0 then [] else
          '.' :: padZeros k (natToChars ((q * 10 ^ k).num.natAbs % 10 ^ k))), ?_, ?_⟩
        · rw [List.nil_append, hd]
          simp
        · exact Or.inr (Or.inr (Or.inr (Or.inr (Or.inr (Or.inr (Or.inr (Or.inr
            ⟨d, hlt, rfl⟩)))))))
  | str s => exact ⟨'"', _, rfl, by simp⟩
  | arr l =>
    cases l with
    | nil => exact ⟨'[', _, rfl, by simp⟩
    | cons x xs => exact ⟨'[', _, rfl, by simp⟩
  | obj l =>
    cases l with
    | nil => exact ⟨'\x7b', _, rfl, by simp⟩
    | cons m ms => exact ⟨'\x7b', _, rfl, by simp⟩

theorem jChars_length_pos (j : Json) : 1 ≤ (jChars j).length := by
  obtain ⟨c, t, h, _⟩ := jChars_head j
  rw [h]
  simp

theorem parseValue_num_dispatch (g : ℕ) (c : Char) (t : List Char)
    (hc : c = '-' ∨ ∃ d, d < 10 ∧ c = toDigitChar d) :
    parseValue (g + 1) (c :: t) =
      match parseNumber (c :: t) with
      | some (q, r) => some (.num q, r)
      | none => none := by
  rcases hc with rfl | ⟨d, hd, rfl⟩
  · rfl
  · interval_cases d <;> rfl

theorem parseValue_arr_dispatch (g : ℕ) (c : Char) (t : List Char)
    (hc : c = 'n' ∨ c = 't' ∨ c = 'f' ∨ c = '"' ∨ c = '[' ∨ c = '\x7b' ∨ c = '?' ∨
      c = '-' ∨ ∃ d, d < 10 ∧ c = toDigitChar d) :
    parseValue (g + 1) ('[' :: c :: t) =
      match parseElems g (c :: t) with
      | some (es, r2) => some (.arr es, r2)
      | none => none := by
  rcases hc with rfl | rfl | rfl | rfl | rfl | rfl | rfl | rfl | ⟨d, hd, rfl⟩
  any_goals rfl
  interval_cases d <;> rfl

theorem parseValue_obj_dispatch (g : ℕ) (c : Char) (t : List Char)
    (hc : c = 'n' ∨ c = 't' ∨ c = 'f' ∨ c = '"' ∨ c = '[' ∨ c = '\x7b' ∨ c = '?' ∨
      c = '-' ∨ ∃ d, d < 10 ∧ c = toDigitChar d) :
    parseValue (g + 1) ('\x7b' :: c :: t) =
      match parseMembers g (c :: t) with
      | some (ms, r2) => some (.obj ms, r2)
      | none => none := by
  rcases hc with rfl | rfl | rfl | rfl | rfl | rfl | rfl | rfl | ⟨d, hd, rfl⟩
  any_goals rfl
  interval_cases d <;> rfl

/-- The parser inverts the printer: parsing the printed characters of a
well-formed JSON value, followed by a separator or nothing, returns the
value and the remaining input.  The three parts cover a value, the
elements of a non-empty array, and the members of a non-empty
object. -/
theorem parse_roundtrip : ∀ N : ℕ,
    (∀ (j : Json) (rest : List Char) (fuel : ℕ),
      (jChars j).length ≤ N → jwfB j = true → (jChars j).length ≤ fuel →
      sepAfterB rest = true →
      parseValue fuel (jChars j ++ rest) = some (j, rest)) ∧
    (∀ (x : Json) (xs : List Json) (rest : List Char) (fuel : ℕ),
      (jChars x ++ jCharsElems xs).length + 1 ≤ N → jwfB x = true →
      jwfElemsB xs = true →
      (jChars x ++ jCharsElems xs).length + 1 ≤ fuel →
      parseElems fuel ((jChars x ++ jCharsElems xs) ++ ']' :: rest) =
        some (x :: xs, rest)) ∧
    (∀ (k : String) (v : Json) (ms : List (String × Json)) (rest : List Char) (fuel : ℕ),
      (jCharsMember (k, v) ++ jCharsMembers ms).length + 1 ≤ N → jwfB v = true →
      jwfMembersB ms = true →
      (jCharsMember (k, v) ++ jCharsMembers ms).length + 1 ≤ fuel →
      parseMembers fuel ((jCharsMember (k, v) ++ jCharsMembers ms) ++ '\x7d' :: rest) =
        some ((k, v) :: ms, rest)) := by
  intro N
  induction N using Nat.strong_induction_on with
  | _ N ih =>
    refine ⟨?_, ?_, ?_⟩
    · intro j rest fuel hN hwf hfuel hsep
      have hpos := jChars_length_pos j
      obtain ⟨g, rfl⟩ : ∃ g, fuel = g + 1 := ⟨fuel - 1, by omega⟩
      cases j with
      | null => rfl
      | bool b => cases b <;> rfl
      | num q =>
        have hwfq : decRepB q = true := hwf
        obtain ⟨k, hk⟩ := Option.isSome_iff_exists.mp hwfq
        have hhead : ∃ c t2, jChars (.num q) = c :: t2 ∧
            (c = '-' ∨ ∃ d, d < 10 ∧ c = toDigitChar d) := by
          simp only [jChars, jsNumReprChars, hk]
          by_cases hneg : (q * 10 ^ k).num < 0
          · rw [if_pos hneg]
            exact ⟨'-', _, rfl, Or.inl rfl⟩
          · rw [if_neg hneg]
            obtain ⟨d, t2, hd, hlt⟩ :=
              natToChars_head_digit ((q * 10 ^ k).num.natAbs / 10 ^ k)
            refine ⟨toDigitChar d,
              t2 ++ (if k = 0 then [] else
                '.' :: padZeros k (natToChars ((q * 10 ^ k).num.natAbs % 10 ^ k))),
              ?_, Or.inr ⟨d, hlt, rfl⟩⟩
            rw [List.nil_append, hd]
            simp
        obtain ⟨c, t2, hc, hcd⟩ := hhead
        have hsplit : jChars (.num q) ++ rest = c :: (t2 ++ rest) := by
          rw [hc]
          simp
        rw [hsplit, parseValue_num_dispatch g c _ hcd, ← List.cons_append, ← hc]
        have hjn : jChars (.num q) = jsNumReprChars q := rfl
        rw [hjn, parseNumber_jsNumRepr q hwfq rest hsep]
      | str s =>
        have hred : parseValue (g + 1) (jChars (.str s) ++ rest) =
            match parseStringBody
                (s.data.foldr (fun c acc => escChar c ++ acc) ['"'] ++ rest) with
            | some (cs, r2) => some (.str (String.mk cs), r2)
            | none => none := rfl
        rw [hred, parseStringBody_strLit s rest]
      | arr l =>
        cases l with
        | nil => rfl
        | cons x xs =>
          have hwf2 : jwfB x = true ∧ jwfElemsB xs = true := by
            have h0 : jwfElemsB (x :: xs) = true := hwf
            simpa [jwfElemsB, Bool.and_eq_true] using h0
          have hLarr : (jChars (.arr (x :: xs))).length =
              (jChars x ++ jCharsElems xs).length + 2 := by
            show ('[' :: ((jChars x ++ jCharsElems xs) ++ [']'])).length = _
            simp
            omega
          obtain ⟨c, t2, hcx, hcd⟩ := jChars_head x
          have hsplit : jChars (.arr (x :: xs)) ++ rest =
              '[' :: c :: (t2 ++ jCharsElems xs ++ ']' :: rest) := by
            show ('[' :: ((jChars x ++ jCharsElems xs) ++ [']'])) ++ rest = _
            rw [hcx]
            simp
          rw [hsplit, parseValue_arr_dispatch g c _ hcd]
          have hback : c :: (t2 ++ jCharsElems xs ++ ']' :: rest) =
              (jChars x ++ jCharsElems xs) ++ ']' :: rest := by
            rw [hcx]
            simp
          rw [hback]
          have hP2 := (ih ((jChars x ++ jCharsElems xs).length + 1) (by omega)).2.1
          rw [hP2 x xs rest g le_rfl hwf2.1 hwf2.2 (by omega)]
      | obj l =>
        cases l with
        | nil => rfl
        | cons m ms =>
          obtain ⟨k2, v⟩ := m
          have hwf2 : jwfB v = true ∧ jwfMembersB ms = true := by
            have h0 : jwfMembersB ((k2, v) :: ms) = true := hwf
            simpa [jwfMembersB, Bool.and_eq_true] using h0
          have hLobj : (jChars (.obj ((k2, v) :: ms))).length =
              (jCharsMember (k2, v) ++ jCharsMembers ms).length + 2 := by
            show ('\x7b' :: ((jCharsMember (k2, v) ++ jCharsMembers ms) ++ ['\x7d'])).length = _
            simp
            omega
          have hsplit : jChars (.obj ((k2, v) :: ms)) ++ rest =
              '\x7b' :: '"' :: ((k2.data.foldr (fun c acc => escChar c ++ acc) ['"'] ++
                ':' :: jChars v) ++ jCharsMembers ms ++ '\x7d' :: rest) := by
            show ('\x7b' :: ((jCharsMember (k2, v) ++ jCharsMembers ms) ++ ['\x7d'])) ++ rest = _
            show ('\x7b' :: (((strLitChars k2 ++ ':' :: jChars v) ++ jCharsMembers ms) ++
              ['\x7d'])) ++ rest = _
            simp [strLitChars]
          rw [hsplit, parseValue_obj_dispatch g '"' _ (by simp)]
          have hback : '"' :: ((k2.data.foldr (fun c acc => escChar c ++ acc) ['"'] ++
                ':' :: jChars v) ++ jCharsMembers ms ++ '\x7d' :: rest) =
              (jCharsMember (k2, v) ++ jCharsMembers ms) ++ '\x7d' :: rest := by
            show _ = ((strLitChars k2 ++ ':' :: jChars v) ++ jCharsMembers ms) ++ '\x7d' :: rest
            simp [strLitChars]
          rw [hback]
          have hP3 := (ih ((jCharsMember (k2, v) ++ jCharsMembers ms).length + 1) (by omega)).2.2
          rw [hP3 k2 v ms rest g le_rfl hwf2.1 hwf2.2 (by omega)]
    · intro x xs rest fuel hN hwfx hwfxs hfuel
      obtain ⟨g, rfl⟩ : ∃ g, fuel = g + 1 := ⟨fuel - 1, by omega⟩
      have hx1 := jChars_length_pos x
      have hsep2 : sepAfterB (jCharsElems xs ++ ']' :: rest) = true := by
        cases xs with
        | nil => rfl
        | cons y ys => rfl
      have hassoc : (jChars x ++ jCharsElems xs) ++ ']' :: rest =
          jChars x ++ (jCharsElems xs ++ ']' :: rest) := by simp
      have hlen : (jChars x ++ jCharsElems xs).length =
          (jChars x).length + (jCharsElems xs).length := by simp
      have hP1 := (ih (jChars x).length (by omega)).1
      have hval := hP1 x (jCharsElems xs ++ ']' :: rest) g le_rfl hwfx (by omega) hsep2
      simp only [parseElems]
      rw [hassoc, hval]
      cases xs with
      | nil => rfl
      | cons y ys =>
        have hwfy : jwfB y = true ∧ jwfElemsB ys = true := by
          simpa [jwfElemsB, Bool.and_eq_true] using hwfxs
        have hy1 := jChars_length_pos y
        have hlen2 : (jCharsElems (y :: ys)).length =
            (jChars y ++ jCharsElems ys).length + 1 := by
          show (',' :: (jChars y ++ jCharsElems ys)).length = _
          simp
        have hP2 := (ih ((jChars y ++ jCharsElems ys).length + 1) (by omega)).2.1
        have hrec := hP2 y ys rest g le_rfl hwfy.1 hwfy.2 (by omega)
        have hr : jCharsElems (y :: ys) ++ ']' :: rest =
            ',' :: ((jChars y ++ jCharsElems ys) ++ ']' :: rest) := by
          show (',' :: (jChars y ++ jCharsElems ys)) ++ ']' :: rest = _
          simp
        rw [hr]
        show (match parseElems g ((jChars y ++ jCharsElems ys) ++ ']' :: rest) with
          | some (vs, r3) => some (x :: vs, r3)
          | none => none) = some (x :: y :: ys, rest)
        rw [hrec]
    · intro k v ms rest fuel hN hwfv hwfms hfuel
      obtain ⟨g, rfl⟩ : ∃ g, fuel = g + 1 := ⟨fuel - 1, by omega⟩
      have hsl := strLitChars_length k
      have hv1 := jChars_length_pos v
      have hmemlen : (jCharsMember (k, v)).length =
          (strLitChars k).length + 1 + (jChars v).length := by
        show (strLitChars k ++ ':' :: jChars v).length = _
        simp
        omega
      have hmemsplit : (jCharsMember (k, v) ++ jCharsMembers ms).length =
          (jCharsMember (k, v)).length + (jCharsMembers ms).length := by simp
      have hsplit : (jCharsMember (k, v) ++ jCharsMembers ms) ++ '\x7d' :: rest =
          '"' :: (k.data.foldr (fun c acc => escChar c ++ acc) ['"'] ++
            (':' :: (jChars v ++ (jCharsMembers ms ++ '\x7d' :: rest)))) := by
        show ((strLitChars k ++ ':' :: jChars v) ++ jCharsMembers ms) ++ '\x7d' :: rest = _
        simp [strLitChars]
      rw [hsplit]
      simp only [parseMembers]
      rw [parseStringBody_strLit k (':' :: (jChars v ++ (jCharsMembers ms ++ '\x7d' :: rest)))]
      have hsep3 : sepAfterB (jCharsMembers ms ++ '\x7d' :: rest) = true := by
        cases ms with
        | nil => rfl
        | cons m2 ms2 =>
          obtain ⟨k3, v3⟩ := m2
          rfl
      have hP1 := (ih (jChars v).length (by omega)).1
      have hval := hP1 v (jCharsMembers ms ++ '\x7d' :: rest) g le_rfl hwfv (by omega) hsep3
      simp only [hval]
      cases ms with
      | nil =>
        show some ([(String.mk k.data, v)], rest) = some ([(k, v)], rest)
        rw [strMk_data]
      | cons m2 ms2 =>
        obtain ⟨k3, v3⟩ := m2
        have hwf3 : jwfB v3 = true ∧ jwfMembersB ms2 = true := by
          simpa [jwfMembersB, Bool.and_eq_true] using hwfms
        have hsl3 := strLitChars_length k3
        have hv3 := jChars_length_pos v3
        have hmem3 : (jCharsMember (k3, v3)).length =
            (strLitChars k3).length + 1 + (jChars v3).length := by
          show (strLitChars k3 ++ ':' :: jChars v3).length = _
          simp
          omega
        have hmems3 : (jCharsMembers ((k3, v3) :: ms2)).length =
            (jCharsMember (k3, v3) ++ jCharsMembers ms2).length + 1 := by
          show (',' :: (jCharsMember (k3, v3) ++ jCharsMembers ms2)).length = _
          simp
        have hmemsplit3 : (jCharsMember (k3, v3) ++ jCharsMembers ms2).length =
            (jCharsMember (k3, v3)).length + (jCharsMembers ms2).length := by simp
        have hP3 := (ih ((jCharsMember (k3, v3) ++ jCharsMembers ms2).length + 1) (by omega)).2.2
        have hrec := hP3 k3 v3 ms2 rest g le_rfl hwf3.1 hwf3.2 (by omega)
        have hr : jCharsMembers ((k3, v3) :: ms2) ++ '\x7d' :: rest =
            ',' :: ((jCharsMember (k3, v3) ++ jCharsMembers ms2) ++ '\x7d' :: rest) := by
          show (',' :: (jCharsMember (k3, v3) ++ jCharsMembers ms2)) ++ '\x7d' :: rest = _
          simp
        rw [hr]
        show (match parseMembers g
            ((jCharsMember (k3, v3) ++ jCharsMembers ms2) ++ '\x7d' :: rest) with
          | some (ms3, r5) => some ((String.mk k.data, v) :: ms3, r5)
          | none => none) = some ((k, v) :: (k3, v3) :: ms2, rest)
        rw [hrec, strMk_data]

/-- Claim C10: for every JSON-serializable snapshot value `j` (one whose
numeric leaves have finite decimal expansions, so that stringification
is faithful) and every storage backend that raises no exception,
`saveCache j` followed by `loadCache` returns a value structurally
equal to `j`: the serialize-then-parse round trip through the single
cache slot is the identity. -/
theorem cache_roundtrip (j : Json) (st : Storage)
    (hwf : jwfB j = true) (hok : st.failing = false) :
    loadCache (saveCache j st) = some j := by
  have hload : loadCache (saveCache j st) = jsonParse (jsonStringify j) := by
    simp [saveCache, loadCache, hok]
  rw [hload]
  unfold jsonParse jsonStringify
  rw [strData_mk]
  have h := (parse_roundtrip (jChars j).length).1 j [] ((jChars j).length + 1)
    le_rfl hwf (by omega) rfl
  rw [List.append_nil] at h
  rw [h]

/-- The cache round trip evaluated at a concrete snapshot object. -/
theorem cache_roundtrip_witness :
    loadCache (saveCache
        (Json.obj [("price_usd", Json.num (1/2)),
          ("token_mint", Json.str "So11"),
          ("transactions", Json.arr [Json.bool true, Json.null, Json.num (-3)])])
        ⟨false, none⟩) =
      some (Json.obj [("price_usd", Json.num (1/2)),
        ("token_mint", Json.str "So11"),
        ("transactions", Json.arr [Json.bool true, Json.null, Json.num (-3)])]) :=
  cache_roundtrip _ _ (by with_unfolding_all decide) rfl

end Tolkien
